import Mathlib

/-!
Verification development for the `diameter` chord-chart processor.

The definitions below are a shallow embedding of the Rust sources:

* `src/theory/notes.rs`  — letters, accidentals, MIDI pitch arithmetic
  (the older revision `src/notes.rs` contains an identical copy of the
  pitch arithmetic; one embedding covers both);
* `src/theory/scales.rs` — scales, scale degrees, key conversions;
* `src/chords.rs`        — chords and quality strings (the current
  revision `src/theory/chords.rs` is not among the sources; the shapes
  and the `Display` implementation are taken from `src/chords.rs`,
  which the chordpro parser tests exercise with the same API);
* `src/chordpro/charts.rs` — the chart model, transforms and renderer;
* `src/chordpro/parser.rs` — the nom-based parser.

Machine integers are embedded as `Int` together with explicit wrapping
functions: `u8cast` is the `as u8` conversion and `i8cast` is the `as i8`
conversion / the wrap applied by release-mode `i8` arithmetic.  Strings
are embedded as `List Char`; every character the grammar inspects is
ASCII, so byte positions and character positions agree on all inputs the
claims quantify over.  Fallible Rust code (assertions, `expect`) is
embedded with `Option` / `Except`.
-/

/-- Wrapping conversion to `u8`: the value of `x as u8`. -/
def u8cast (x : Int) : Int := x % 256

/-- Wrapping conversion to `i8`: reinterprets a `u8` value as `i8`, and is
also the wrap performed by overflowing `i8` arithmetic. -/
def i8cast (x : Int) : Int := (x + 128) % 256 - 128

/-- The seven note letters, `Letter` in `src/theory/notes.rs`. -/
inductive Letter
  | C
  | D
  | E
  | F
  | G
  | A
  | B
deriving DecidableEq

/-- A signed accidental, `Accidental` in `src/theory/notes.rs`.  The Rust
type stores an `i8`; the checked constructor `Accidental::new` rejects
values outside `[-2, 2]`, but the private constructor used by
`add_accidentals_to_match` does not, so the embedded field is an
unrestricted integer. -/
structure Accidental where
  val : Int
deriving DecidableEq

/-- `Accidental::NATURAL`. -/
def Accidental.natural : Accidental := ⟨0⟩

/-- `Accidental::new`: asserts `-2 <= delta && delta <= 2`; the assertion
failure is embedded as `none`. -/
def Accidental.new (delta : Int) : Option Accidental :=
  if -2 ≤ delta ∧ delta ≤ 2 then some ⟨delta⟩ else none

/-- A MIDI pitch, `MidiPitch` in `src/theory/notes.rs`.  The Rust type
wraps a `u8`; `val` holds that byte value (every constructor applies
`u8cast`, so `val` is in `[0, 255]` for reachable values). -/
structure MidiPitch where
  val : Int
deriving DecidableEq

/-- `MidiPitch::as_int`: `self.0 as i8`. -/
def MidiPitch.as_int (m : MidiPitch) : Int := i8cast m.val

/-- A letter with an accidental, `LetterNote` in `src/theory/notes.rs`. -/
structure LetterNote where
  letter : Letter
  acc : Accidental
deriving DecidableEq

/-- `Letter::as_int` (0..=6). -/
def Letter.as_int : Letter → Int
  | .C => 0
  | .D => 1
  | .E => 2
  | .F => 3
  | .G => 4
  | .A => 5
  | .B => 6

/-- `Letter::from_int`: matches on `value % 7`. -/
def Letter.from_int (value : Int) : Letter :=
  match value % 7 with
  | 0 => .C
  | 1 => .D
  | 2 => .E
  | 3 => .F
  | 4 => .G
  | 5 => .A
  | _ => .B

/-- `Letter::as_midi`: the base semitone of the letter, offset by 60. -/
def Letter.as_midi (l : Letter) : MidiPitch :=
  match l with
  | .C => ⟨60⟩
  | .D => ⟨62⟩
  | .E => ⟨64⟩
  | .F => ⟨65⟩
  | .G => ⟨67⟩
  | .A => ⟨69⟩
  | .B => ⟨71⟩

/-- `impl Add<i8> for Letter`: `Letter::from_int((self.as_int() as i8 + rhs).rem_euclid(7) as u8)`. -/
def Letter.add (l : Letter) (rhs : Int) : Letter :=
  Letter.from_int ((i8cast (l.as_int + rhs)) % 7)

/-- `LetterNote::as_midi`: base pitch plus accidental, in `i8` arithmetic,
stored back as a `u8`. -/
def LetterNote.as_midi (n : LetterNote) : MidiPitch :=
  ⟨u8cast (i8cast (n.letter.as_midi.as_int + n.acc.val))⟩

/-- `LetterNote::add_accidentals_to_match`: recompute the accidental so the
letter names the target pitch class, choosing the representative of the
difference class normalized from `rem_euclid 12` into `(-6, 6]`.  Note the
result is built with the private `Accidental` constructor: no range check. -/
def LetterNote.add_accidentals_to_match (n : LetterNote) (target : MidiPitch) : LetterNote :=
  let base := n.letter.as_midi.as_int
  let tp := target.as_int
  let a0 := (i8cast (tp - base)) % 12
  let a1 := if 6 < a0 then a0 - 12 else a0
  ⟨n.letter, ⟨a1⟩⟩

/-- A scale degree, `ScaleDegree` in `src/theory/scales.rs` (a `u8` degree
and an accidental; the checked constructor requires the degree in 1..=7). -/
structure ScaleDegree where
  degree : Nat
  acc : Accidental
deriving DecidableEq

/-- `ScaleDegree::new`: asserts `1 <= degree && degree <= 7`. -/
def ScaleDegree.new (degree : Nat) (accidental : Accidental) : Option ScaleDegree :=
  if 1 ≤ degree ∧ degree ≤ 7 then some ⟨degree, accidental⟩ else none

/-- A key, `Scale` in `src/theory/scales.rs`: wraps the tonic letter note. -/
structure Scale where
  tonic : LetterNote
deriving DecidableEq

/-- The major-scale semitone offset used by `ScaleDegree::midi_in_key`.
Degrees outside 1..=7 are `unreachable!()` in the source; the default
branch returns 0 and is never relevant. -/
def degreeDelta : Nat → Int
  | 1 => 0
  | 2 => 2
  | 3 => 4
  | 4 => 5
  | 5 => 7
  | 6 => 9
  | 7 => 11
  | _ => 0

/-- `impl Add<i8> for MidiPitch` (and the identical `Add<Accidental>`):
`MidiPitch((self.as_int() + rhs) as u8)`. -/
def MidiPitch.addI8 (m : MidiPitch) (rhs : Int) : MidiPitch :=
  ⟨u8cast (i8cast (m.as_int + rhs))⟩

/-- `ScaleDegree::midi_in_key`: `key.0.as_midi() + delta + self.1.as_int()`. -/
def ScaleDegree.midi_in_key (d : ScaleDegree) (key : Scale) : MidiPitch :=
  (key.tonic.as_midi.addI8 (degreeDelta d.degree)).addI8 d.acc.val

/-- `ScaleDegree::in_key`: letter is the tonic letter shifted by
`(self.0 - 1) as i8` (a `u8` subtraction reinterpreted as `i8`), accidental
corrected to match `midi_in_key`. -/
def ScaleDegree.in_key (d : ScaleDegree) (key : Scale) : LetterNote :=
  let letter := key.tonic.letter.add (i8cast (u8cast ((d.degree : Int) - 1)))
  (LetterNote.mk letter Accidental.natural).add_accidentals_to_match (d.midi_in_key key)

/-- `ScaleDegree::add_accidentals_to_match`: the delta between the target and
this degree rendered in the key, normalized into `(-6, 6]`, passed through the
checked `Accidental::new` (whose assertion is embedded as `none`). -/
def ScaleDegree.add_accidentals_to_match (d : ScaleDegree) (key : Scale) (target : MidiPitch) :
    Option ScaleDegree :=
  let delta0 := (i8cast (target.as_int - (d.in_key key).as_midi.as_int)) % 12
  let delta1 := if 6 < delta0 then delta0 - 12 else delta0
  (Accidental.new delta1).map (fun a => ⟨d.degree, a⟩)

/-- `Letter::as_natural_scale_degree`: degree from the letter distance to the
tonic letter, with a natural accidental. -/
def Letter.as_natural_scale_degree (l : Letter) (key : Scale) : ScaleDegree :=
  ⟨((i8cast (l.as_int - key.tonic.letter.as_int)) % 7).toNat + 1, Accidental.natural⟩

/-- `LetterNote::as_scale_degree`: natural degree from the letter, then
accidental-corrected to the note's true pitch. -/
def LetterNote.as_scale_degree (n : LetterNote) (key : Scale) : Option ScaleDegree :=
  (n.letter.as_natural_scale_degree key).add_accidentals_to_match key n.as_midi

/-- `Note` in `src/theory/notes.rs`: a letter-spelled or degree-spelled pitch. -/
inductive Note
  | letter (n : LetterNote)
  | number (d : ScaleDegree)
deriving DecidableEq

/-- `Note::as_scale_degree`: letter notes are converted, numbers pass through
unchanged. -/
def Note.as_scale_degree : Note → Scale → Option ScaleDegree
  | .letter n, key => n.as_scale_degree key
  | .number d, _ => some d

/-! ## Music-theory lemmas (claims C1, C2, C3) -/

/-- Any successful `as_scale_degree` yields a degree in 1..=7 (it is the
natural letter degree) and an accidental that passed `Accidental::new`,
hence lies in `[-2, 2]`. -/
theorem as_scale_degree_some_bounds (n : LetterNote) (key : Scale) (d : ScaleDegree)
    (h : n.as_scale_degree key = some d) :
    (1 ≤ d.degree ∧ d.degree ≤ 7) ∧ (-2 ≤ d.acc.val ∧ d.acc.val ≤ 2) := by
  obtain ⟨deg2, ⟨av⟩⟩ := d
  simp only [LetterNote.as_scale_degree, ScaleDegree.add_accidentals_to_match,
    Letter.as_natural_scale_degree, Option.map_eq_some'] at h
  obtain ⟨a, ha, hfa⟩ := h
  unfold Accidental.new at ha
  rw [Option.ite_none_right_eq_some, Option.some.injEq] at ha
  obtain ⟨⟨ha1, ha2⟩, rfl⟩ := ha
  injection hfa with h1 h2
  injection h2 with h2
  dsimp only
  have h0 : 0 ≤ (i8cast (n.letter.as_int - key.tonic.letter.as_int)) % 7 :=
    Int.emod_nonneg _ (by norm_num)
  have h7 : (i8cast (n.letter.as_int - key.tonic.letter.as_int)) % 7 < 7 :=
    Int.emod_lt_of_pos _ (by norm_num)
  omega

set_option maxHeartbeats 4000000 in
/-- Rendering a well-formed scale degree in any well-formed key and converting
the resulting letter note back to a degree in that same key is the identity,
checked by enumerating all degrees, degree accidentals, tonic letters and
tonic accidentals in the validated ranges. -/
theorem in_key_as_scale_degree_enum (deg : Nat) (a ka : Int) (l : Letter)
    (h1 : 1 ≤ deg) (h2 : deg ≤ 7) (h3 : -2 ≤ a) (h4 : a ≤ 2) (h5 : -2 ≤ ka) (h6 : ka ≤ 2) :
    ((ScaleDegree.mk deg ⟨a⟩).in_key ⟨⟨l, ⟨ka⟩⟩⟩).as_scale_degree ⟨⟨l, ⟨ka⟩⟩⟩
      = some (ScaleDegree.mk deg ⟨a⟩) := by
  interval_cases deg <;> interval_cases a <;> interval_cases ka <;> cases l <;> decide

/-- Claim C1 (amended): converting a letter note with `as_scale_degree(K1)`,
rendering that degree with `in_key(K2)` and converting the result with
`as_scale_degree(K2)` yields the same `ScaleDegree` as `as_scale_degree(K1)`
of the original note (not `as_scale_degree(K2)` as the claim stated): the
middle render/convert leg within `K2` is the identity on the degree obtained
in the source key.  Stated for keys whose tonic accidental is in the
validated `[-2, 2]` range and under the hypothesis that the first conversion
succeeds (does not hit the `Accidental::new` assertion). -/
theorem two_path_transposition_amended (n : LetterNote) (K1 K2 : Scale) (d : ScaleDegree)
    (hk : -2 ≤ K2.tonic.acc.val ∧ K2.tonic.acc.val ≤ 2)
    (hd : n.as_scale_degree K1 = some d) :
    (d.in_key K2).as_scale_degree K2 = n.as_scale_degree K1 := by
  obtain ⟨⟨hd1, hd2⟩, hd3, hd4⟩ := as_scale_degree_some_bounds n K1 d hd
  rw [hd]
  obtain ⟨⟨lt, ⟨ka⟩⟩⟩ := K2
  obtain ⟨deg, ⟨a⟩⟩ := d
  exact in_key_as_scale_degree_enum deg a ka lt hd1 hd2 hd3 hd4 hk.1 hk.2

/-- Claim C1 (witness): the amended theorem applied at note C, K1 = C major,
K2 = D major. -/
theorem two_path_transposition_amended_witness :
    ((ScaleDegree.mk 1 ⟨0⟩).in_key ⟨⟨.D, ⟨0⟩⟩⟩).as_scale_degree ⟨⟨.D, ⟨0⟩⟩⟩
      = (LetterNote.mk .C ⟨0⟩).as_scale_degree ⟨⟨.C, ⟨0⟩⟩⟩ :=
  two_path_transposition_amended (LetterNote.mk .C ⟨0⟩) ⟨⟨.C, ⟨0⟩⟩⟩ ⟨⟨.D, ⟨0⟩⟩⟩
    (ScaleDegree.mk 1 ⟨0⟩) (by decide) (by decide)

/-- Claim C1 (counterexample): for root C with K1 = C major and K2 = D major,
the two-path conversion gives scale degree 1 (natural), while the direct
`as_scale_degree(K2)` of the original note gives flat 7, so the claim as
stated is false. -/
theorem two_path_transposition_cex :
    (LetterNote.mk .C ⟨0⟩).as_scale_degree ⟨⟨.C, ⟨0⟩⟩⟩ = some (ScaleDegree.mk 1 ⟨0⟩)
    ∧ ((ScaleDegree.mk 1 ⟨0⟩).in_key ⟨⟨.D, ⟨0⟩⟩⟩).as_scale_degree ⟨⟨.D, ⟨0⟩⟩⟩
        = some (ScaleDegree.mk 1 ⟨0⟩)
    ∧ (LetterNote.mk .C ⟨0⟩).as_scale_degree ⟨⟨.D, ⟨0⟩⟩⟩ = some (ScaleDegree.mk 7 ⟨-1⟩)
    ∧ ScaleDegree.mk 1 ⟨0⟩ ≠ ScaleDegree.mk 7 ⟨-1⟩ := by
  refine ⟨by decide, by decide, by decide, by decide⟩

/-- The accidental produced by `LetterNote::add_accidentals_to_match` for a
letter and a target pitch (the respelling routine of claim C2). -/
def respellAcc (l : Letter) (target : MidiPitch) : Int :=
  ((LetterNote.mk l Accidental.natural).add_accidentals_to_match target).acc.val

/-- Claim C2 (amended): for every letter and every target `MidiPitch` whose
byte value is at most 127 (so that the `u8 -> i8` reinterpretation inside
`as_int` is the identity; this covers every pitch the program constructs),
the respelling accidental makes the letter's base pitch congruent to the
target mod 12, and it is the unique representative of that congruence class
in `(-6, 6]` (equivalently, it equals the canonical representative
`((target - base + 5) mod 12) - 5`).  For byte values 128..=255 the claim
fails, see the counterexample. -/
theorem respell_accidental_amended (l : Letter) (t : MidiPitch)
    (ht : 0 ≤ t.val ∧ t.val ≤ 127) :
    (l.as_midi.val + respellAcc l t - t.val) % 12 = 0
    ∧ (-6 < respellAcc l t ∧ respellAcc l t ≤ 6)
    ∧ respellAcc l t = (t.val - l.as_midi.val + 5) % 12 - 5 := by
  obtain ⟨v⟩ := t
  dsimp only at ht
  cases l <;>
    simp only [respellAcc, LetterNote.add_accidentals_to_match, Letter.as_midi,
      MidiPitch.as_int, i8cast, Accidental.natural] <;>
    split <;>
    constructor <;>
    omega

/-- Claim C2 (witness): the amended theorem applied at letter C and target
pitch 3 (a respelling three semitones up). -/
theorem respell_accidental_amended_witness :
    (0 ≤ (MidiPitch.mk 3).val ∧ (MidiPitch.mk 3).val ≤ 127)
    ∧ ((Letter.C.as_midi.val + respellAcc .C ⟨3⟩ - (MidiPitch.mk 3).val) % 12 = 0
       ∧ (-6 < respellAcc .C ⟨3⟩ ∧ respellAcc .C ⟨3⟩ ≤ 6)
       ∧ respellAcc .C ⟨3⟩ = ((MidiPitch.mk 3).val - Letter.C.as_midi.val + 5) % 12 - 5) :=
  ⟨by decide, respell_accidental_amended .C ⟨3⟩ (by decide)⟩

/-- Claim C2 (counterexample): at letter C and target byte value 200 the
computed accidental is 4 (the function works on `200 as i8 = -56`), and
`base + 4 = 64` is not congruent to 200 mod 12, so the claim quantified over
every `MidiPitch` is false. -/
theorem respell_accidental_cex :
    respellAcc .C ⟨200⟩ = 4
    ∧ (Letter.C.as_midi.val + respellAcc .C ⟨200⟩ - (MidiPitch.mk 200).val) % 12 ≠ 0 := by
  refine ⟨by decide, by decide⟩

set_option maxHeartbeats 4000000 in
/-- For every letter note and key whose accidentals are in the validated
`[-2, 2]` range, if `as_scale_degree` succeeds then rendering the degree back
with `in_key` reproduces the note's MIDI pitch exactly (vacuously true when
the conversion hits the `Accidental::new` assertion), checked by enumerating
letters, accidentals, tonic letters and tonic accidentals. -/
theorem as_scale_degree_in_key_enum (l kl : Letter) (a ka : Int)
    (h3 : -2 ≤ a) (h4 : a ≤ 2) (h5 : -2 ≤ ka) (h6 : ka ≤ 2) :
    (((LetterNote.mk l ⟨a⟩).as_scale_degree ⟨⟨kl, ⟨ka⟩⟩⟩).map
        (fun d => (d.in_key ⟨⟨kl, ⟨ka⟩⟩⟩).as_midi)).getD (LetterNote.mk l ⟨a⟩).as_midi
      = (LetterNote.mk l ⟨a⟩).as_midi := by
  interval_cases a <;> interval_cases ka <;> cases l <;> cases kl <;> decide

/-- Claim C3 (amended): for every `LetterNote` and key whose accidentals lie
in the validated `[-2, 2]` range, whenever `as_scale_degree(k)` succeeds (does
not hit the `Accidental::new` assertion in `ScaleDegree::add_accidentals_to_match`),
rendering the resulting degree with `in_key(k)` produces a letter note with
exactly the same `MidiPitch`.  The success hypothesis is necessary: see the
counterexample, where the conversion itself panics. -/
theorem key_round_trip_amended (n : LetterNote) (k : Scale) (d : ScaleDegree)
    (hn : -2 ≤ n.acc.val ∧ n.acc.val ≤ 2)
    (hk : -2 ≤ k.tonic.acc.val ∧ k.tonic.acc.val ≤ 2)
    (hd : n.as_scale_degree k = some d) :
    (d.in_key k).as_midi = n.as_midi := by
  obtain ⟨nl, ⟨na⟩⟩ := n
  obtain ⟨⟨kl, ⟨ka⟩⟩⟩ := k
  have h := as_scale_degree_in_key_enum nl kl na ka hn.1 hn.2 hk.1 hk.2
  rw [hd] at h
  simpa using h

/-- Claim C3 (witness): the amended theorem applied at note B flat in the key
of B flat (degree 1, pitch 70 preserved). -/
theorem key_round_trip_amended_witness :
    ((ScaleDegree.mk 1 ⟨0⟩).in_key ⟨⟨.B, ⟨-1⟩⟩⟩).as_midi = (LetterNote.mk .B ⟨-1⟩).as_midi :=
  key_round_trip_amended (LetterNote.mk .B ⟨-1⟩) ⟨⟨.B, ⟨-1⟩⟩⟩ (ScaleDegree.mk 1 ⟨0⟩)
    (by decide) (by decide) (by decide)

/-- Claim C3 (counterexample): for the valid letter note F double-flat in the
valid key B sharp, `as_scale_degree` computes a degree accidental of -4, so
`Accidental::new` asserts (embedded as `none`): no letter note is produced at
all, refuting the claim as stated for every note and key. -/
theorem key_round_trip_cex :
    (LetterNote.mk .F ⟨-2⟩).as_scale_degree ⟨⟨.B, ⟨1⟩⟩⟩ = none
    ∧ ((LetterNote.mk .F ⟨-2⟩).as_scale_degree ⟨⟨.B, ⟨1⟩⟩⟩).map
        (ScaleDegree.in_key · ⟨⟨.B, ⟨1⟩⟩⟩) = none := by
  refine ⟨by decide, by decide⟩

/-! ## Chart model (`src/chordpro/charts.rs`, chord shapes from `src/chords.rs`) -/

/-- `ChordQuality`: an uninterpreted quality string. -/
structure ChordQuality where
  val : List Char
deriving DecidableEq

/-- `Chord`: root note, quality, optional bass note. -/
structure Chord where
  root : Note
  quality : ChordQuality
  bass : Option Note
deriving DecidableEq

/-- `Chunk`: an optionally-chorded run of lyrics. -/
structure Chunk where
  chord : Option Chord
  lyrics : List Char
deriving DecidableEq

/-- `Directive` in `src/chordpro/directives.rs` (the payload shapes are fixed
by the parser and the old revision `src/directives.rs`). -/
inductive Directive
  | title (s : List Char)
  | comment (s : List Char)
  | key (k : Scale)
  | tempo (n : Nat)
  | other (s : List Char)
deriving DecidableEq

/-- `Line`: a directive or a content line with its layout flag. -/
inductive Line
  | directive (d : Directive)
  | content (chunks : List Chunk) (inline : Bool)
deriving DecidableEq

/-- `Chart`: the ordered lines of the document. -/
structure Chart where
  lines : List Line
deriving DecidableEq

/-- The scan inside `Chart::key`: first `Key` directive payload. -/
def chartKeyLines : List Line → Option Scale
  | [] => none
  | .directive (.key k) :: _ => some k
  | _ :: t => chartKeyLines t

/-- `Chart::key`. -/
def Chart.key (c : Chart) : Option Scale := chartKeyLines c.lines

/-- The replace loop of `Chart::set_key`: replace the payload of the first
`Key` directive, returning `none` when there is none. -/
def replaceFirstKey : List Line → Scale → Option (List Line)
  | [], _ => none
  | .directive (.key _) :: t, key => some (.directive (.key key) :: t)
  | l :: t, key => (replaceFirstKey t key).map (l :: ·)

/-- The insert fallback of `Chart::set_key`: insert a `Key` directive at the
first position that is not a directive line (at the end if all lines are
directives). -/
def insertKeyAfterDirectives : List Line → Scale → List Line
  | [], key => [.directive (.key key)]
  | .directive d :: t, key => .directive d :: insertKeyAfterDirectives t key
  | l :: t, key => .directive (.key key) :: l :: t

/-- `Chart::set_key`. -/
def Chart.set_key (c : Chart) (key : Scale) : Chart :=
  match replaceFirstKey c.lines key with
  | some ls => ⟨ls⟩
  | none => ⟨insertKeyAfterDirectives c.lines key⟩

/-- Option-valued `map` over a list, short-circuiting on the first failure:
the effect of the `for` loops in `transform_all_chords` when the payload
function can panic (the panic is embedded as `none`). -/
def optMapList (F : α → Option β) : List α → Option (List β)
  | [] => some []
  | a :: t =>
    match F a with
    | none => none
    | some b => (optMapList F t).map (b :: ·)

/-- The chord rebuild inside `Chart::transform_all_notes`: apply `f` to the
root and (when present) the bass, keep the quality. -/
def Chord.mapNotes (f : Note → Option Note) (c : Chord) : Option Chord :=
  match f c.root with
  | none => none
  | some root =>
    match c.bass with
    | none => some ⟨root, c.quality, none⟩
    | some b =>
      match f b with
      | none => none
      | some b2 => some ⟨root, c.quality, some b2⟩

/-- The per-chunk step of `Chart::transform_all_chords`: chunks without a
chord are untouched. -/
def Chunk.mapChord (f : Chord → Option Chord) (ck : Chunk) : Option Chunk :=
  match ck.chord with
  | none => some ck
  | some ch =>
    match f ch with
    | none => none
    | some ch2 => some ⟨some ch2, ck.lyrics⟩

/-- The per-line step of `Chart::transform_all_chords`: directive lines are
untouched. -/
def Line.mapChords (f : Chord → Option Chord) : Line → Option Line
  | .directive d => some (.directive d)
  | .content cks inl => (optMapList (Chunk.mapChord f) cks).map (fun cks2 => .content cks2 inl)

/-- `Chart::transform_all_chords`. -/
def Chart.transform_all_chords (c : Chart) (f : Chord → Option Chord) : Option Chart :=
  (optMapList (Line.mapChords f) c.lines).map Chart.mk

/-- `Chart::transform_all_notes`. -/
def Chart.transform_all_notes (c : Chart) (f : Note → Option Note) : Option Chart :=
  c.transform_all_chords (Chord.mapNotes f)

/-- The two panics of the chart transforms: the `expect` on a missing key
directive, and the `Accidental::new` assertion reachable through
`as_scale_degree`.  They are distinct error conditions (and both are distinct
from parse errors, which live in the parser's `Option` results). -/
inductive TransformError
  | missingKey
  | invalidAccidental
deriving DecidableEq

/-- `Chart::to_numbers`: requires a key; converts every chord note to its
scale degree in that key; the key directive itself is not modified. -/
def Chart.to_numbers (c : Chart) : Except TransformError Chart :=
  match c.key with
  | none => .error .missingKey
  | some key =>
    match c.transform_all_notes (fun n => (n.as_scale_degree key).map Note.number) with
    | some c2 => .ok c2
    | none => .error .invalidAccidental

/-- `Chart::transpose_to`: requires a key; converts every chord note to the
old key's degree and renders it in the new key; then sets the key directive. -/
def Chart.transpose_to (c : Chart) (new_key : Scale) : Except TransformError Chart :=
  match c.key with
  | none => .error .missingKey
  | some old_key =>
    match c.transform_all_notes
        (fun n => (n.as_scale_degree old_key).map (fun d => Note.letter (d.in_key new_key))) with
    | some c2 => .ok (c2.set_key new_key)
    | none => .error .invalidAccidental

/-- Claim C7: on a chart with no Key directive, both `transpose_to` and
`to_numbers` fail with the distinct missing-key error (the source's
`expect` panic, not a parse error); on a chart that has a Key directive,
neither operation can produce the missing-key error (though they may still
fail with the distinct accidental-range error). -/
theorem missing_key_precondition (c : Chart) (k : Scale) :
    (c.key = none →
      c.to_numbers = Except.error TransformError.missingKey
      ∧ c.transpose_to k = Except.error TransformError.missingKey)
    ∧ (c.key ≠ none →
      c.to_numbers ≠ Except.error TransformError.missingKey
      ∧ c.transpose_to k ≠ Except.error TransformError.missingKey) := by
  constructor
  · intro h
    constructor
    · simp [Chart.to_numbers, h]
    · simp [Chart.transpose_to, h]
  · intro h
    obtain ⟨key, hk⟩ := Option.ne_none_iff_exists'.mp h
    constructor
    · simp only [Chart.to_numbers, hk]
      split <;> simp
    · simp only [Chart.transpose_to, hk]
      split <;> simp

/-- Claim C7 (witness): the empty chart has no key and both transforms report
the missing-key error on it. -/
theorem missing_key_precondition_witness :
    Chart.to_numbers ⟨[]⟩ = Except.error TransformError.missingKey
    ∧ Chart.transpose_to ⟨[]⟩ ⟨⟨.C, ⟨0⟩⟩⟩ = Except.error TransformError.missingKey :=
  (missing_key_precondition ⟨[]⟩ ⟨⟨.C, ⟨0⟩⟩⟩).1 rfl

/-! ## Idempotence of `to_numbers` (claim C10) -/

/-- If the elementwise function is idempotent on its successful outputs, so is
the short-circuiting list map. -/
theorem optMapList_idem (F : α → Option α) (hF : ∀ a b, F a = some b → F b = some b) :
    ∀ l l2, optMapList F l = some l2 → optMapList F l2 = some l2 := by
  intro l
  induction l with
  | nil =>
    intro l2 h
    simp only [optMapList, Option.some.injEq] at h
    subst h
    simp [optMapList]
  | cons a t ih =>
    intro l2 h
    simp only [optMapList] at h
    cases hfa : F a with
    | none => rw [hfa] at h; simp at h
    | some b =>
      rw [hfa] at h
      cases hmt : optMapList F t with
      | none => rw [hmt] at h; simp at h
      | some t2 =>
        rw [hmt] at h
        simp only [Option.map_some', Option.some.injEq] at h
        subst h
        simp only [optMapList, hF a b hfa, ih t2 hmt, Option.map_some']

/-- `as_scale_degree` followed by the `Number` injection is idempotent:
number notes pass through unchanged. -/
theorem noteToNumber_idem (key : Scale) :
    ∀ n m, (Note.as_scale_degree n key).map Note.number = some m →
      (Note.as_scale_degree m key).map Note.number = some m := by
  intro n m h
  simp only [Option.map_eq_some'] at h
  obtain ⟨d, hd, rfl⟩ := h
  simp [Note.as_scale_degree]

/-- `Chord.mapNotes` is idempotent when the note function is. -/
theorem mapNotes_idem (F : Note → Option Note) (hF : ∀ a b, F a = some b → F b = some b) :
    ∀ c c2, Chord.mapNotes F c = some c2 → Chord.mapNotes F c2 = some c2 := by
  intro c c2 h
  unfold Chord.mapNotes at h ⊢
  cases hr : F c.root with
  | none => simp [hr] at h
  | some r2 =>
    cases hb : c.bass with
    | none =>
      simp only [hr, hb, Option.some.injEq] at h
      subst h
      simp [hF _ _ hr]
    | some b =>
      cases hfb : F b with
      | none => simp [hr, hb, hfb] at h
      | some b2 =>
        simp only [hr, hb, hfb, Option.some.injEq] at h
        subst h
        simp [hF _ _ hr, hF _ _ hfb]

/-- `Chunk.mapChord` is idempotent when the chord function is. -/
theorem mapChord_idem (f : Chord → Option Chord) (hf : ∀ a b, f a = some b → f b = some b) :
    ∀ ck ck2, Chunk.mapChord f ck = some ck2 → Chunk.mapChord f ck2 = some ck2 := by
  intro ck ck2 h
  unfold Chunk.mapChord at h ⊢
  cases hc : ck.chord with
  | none =>
    simp only [hc, Option.some.injEq] at h
    subst h
    simp [hc]
  | some ch =>
    cases hfc : f ch with
    | none => simp [hc, hfc] at h
    | some ch2 =>
      simp only [hc, hfc, Option.some.injEq] at h
      subst h
      simp [hf _ _ hfc]

/-- `Line.mapChords` is idempotent when the chord function is. -/
theorem mapChords_idem (f : Chord → Option Chord) (hf : ∀ a b, f a = some b → f b = some b) :
    ∀ l l2, Line.mapChords f l = some l2 → Line.mapChords f l2 = some l2 := by
  intro l l2 h
  cases l with
  | directive d =>
    simp only [Line.mapChords, Option.some.injEq] at h
    subst h
    simp [Line.mapChords]
  | content cks inl =>
    simp only [Line.mapChords, Option.map_eq_some'] at h
    obtain ⟨cks2, hm, rfl⟩ := h
    simp only [Line.mapChords, Option.map_eq_some']
    exact ⟨cks2, optMapList_idem _ (mapChord_idem f hf) cks cks2 hm, rfl⟩

/-- Transforming chords never touches directive lines, so the first Key
directive payload is unchanged. -/
theorem mapChords_key_eq (f : Chord → Option Chord) :
    ∀ ls ls2, optMapList (Line.mapChords f) ls = some ls2 →
      chartKeyLines ls2 = chartKeyLines ls := by
  intro ls
  induction ls with
  | nil =>
    intro ls2 h
    simp only [optMapList, Option.some.injEq] at h
    subst h
    rfl
  | cons l t ih =>
    intro ls2 h
    simp only [optMapList] at h
    cases hfl : Line.mapChords f l with
    | none => rw [hfl] at h; simp at h
    | some l2 =>
      rw [hfl] at h
      cases hmt : optMapList (Line.mapChords f) t with
      | none => rw [hmt] at h; simp at h
      | some t2 =>
        rw [hmt] at h
        simp only [Option.map_some', Option.some.injEq] at h
        subst h
        cases l with
        | directive d =>
          simp only [Line.mapChords, Option.some.injEq] at hfl
          subst hfl
          cases d <;> simp [chartKeyLines, ih t2 hmt]
        | content cks inl =>
          simp only [Line.mapChords, Option.map_eq_some'] at hfl
          obtain ⟨cks2, _, rfl⟩ := hfl
          simp [chartKeyLines, ih t2 hmt]

/-- Claim C10: `to_numbers` is idempotent — if it succeeds once, applying it
to the result succeeds and returns the result unchanged, because
`as_scale_degree` passes `Number` notes through for any key and the Key
directive is not modified. -/
theorem to_numbers_idempotent (c c2 : Chart) (h : c.to_numbers = Except.ok c2) :
    c2.to_numbers = Except.ok c2 := by
  unfold Chart.to_numbers at h ⊢
  cases hk : c.key with
  | none => simp [hk] at h
  | some key =>
    simp only [hk] at h
    cases ht : c.transform_all_notes (fun n => (n.as_scale_degree key).map Note.number) with
    | none => simp [ht] at h
    | some c3 =>
      simp only [ht, Except.ok.injEq] at h
      subst h
      unfold Chart.transform_all_notes Chart.transform_all_chords at ht
      simp only [Option.map_eq_some'] at ht
      obtain ⟨ls2, hm, hc3⟩ := ht
      have hkey : c3.key = some key := by
        unfold Chart.key
        rw [← hc3]
        dsimp only
        rw [mapChords_key_eq _ c.lines ls2 hm]
        exact hk
      simp only [hkey]
      have hidem := optMapList_idem _
        (mapChords_idem _ (mapNotes_idem _ (noteToNumber_idem key))) c.lines ls2 hm
      have hfix : c3.transform_all_notes (fun n => (n.as_scale_degree key).map Note.number)
          = some c3 := by
        unfold Chart.transform_all_notes Chart.transform_all_chords
        rw [← hc3]
        dsimp only
        rw [hidem]
        simp
      simp [hfix]

/-- Claim C10 (witness): a one-line chart in the key of C with a single G
chord; `to_numbers` turns the chord into degree 5 and is idempotent there. -/
theorem to_numbers_idempotent_witness :
    Chart.to_numbers ⟨[.directive (.key ⟨⟨.C, ⟨0⟩⟩⟩),
        .content [⟨some ⟨.number ⟨5, ⟨0⟩⟩, ⟨[]⟩, none⟩, []⟩] true]⟩
      = Except.ok ⟨[.directive (.key ⟨⟨.C, ⟨0⟩⟩⟩),
        .content [⟨some ⟨.number ⟨5, ⟨0⟩⟩, ⟨[]⟩, none⟩, []⟩] true]⟩ :=
  to_numbers_idempotent
    ⟨[.directive (.key ⟨⟨.C, ⟨0⟩⟩⟩),
      .content [⟨some ⟨.letter ⟨.G, ⟨0⟩⟩, ⟨[]⟩, none⟩, []⟩] true]⟩
    ⟨[.directive (.key ⟨⟨.C, ⟨0⟩⟩⟩),
      .content [⟨some ⟨.number ⟨5, ⟨0⟩⟩, ⟨[]⟩, none⟩, []⟩] true]⟩
    rfl

/-! ## Transposition frame (claim C9) -/

/-- Erase a chord's root and bass pitches (keeping the bass's presence and the
quality): the part of a chord that `transpose_to` may change is replaced by a
fixed placeholder. -/
def Chord.skeleton (c : Chord) : Chord :=
  ⟨Note.number ⟨1, ⟨0⟩⟩, c.quality, c.bass.map (fun _ => Note.number ⟨1, ⟨0⟩⟩)⟩

/-- Erase the mutable part of a chunk: the lyrics and the presence of a chord
are kept. -/
def Chunk.skeleton (ck : Chunk) : Chunk := ⟨ck.chord.map Chord.skeleton, ck.lyrics⟩

/-- Erase the payload of a Key directive; all other directives are kept
verbatim. -/
def Directive.skeleton : Directive → Directive
  | .key _ => .key ⟨⟨.C, ⟨0⟩⟩⟩
  | d => d

/-- Erase everything `transpose_to` is allowed to change in a line: chord
root/bass pitches and Key directive payloads.  Lyrics, layout flags, chord
qualities, bass presence, line variants and all other directives survive. -/
def Line.skeleton : Line → Line
  | .directive d => .directive d.skeleton
  | .content cks inl => .content (cks.map Chunk.skeleton) inl

/-- The elementwise maps preserve the image under `g` whenever the element
function does. -/
theorem optMapList_map_eq {g : α → γ} (F : α → Option α)
    (hF : ∀ a b, F a = some b → g b = g a) :
    ∀ l l2, optMapList F l = some l2 → l2.map g = l.map g := by
  intro l
  induction l with
  | nil =>
    intro l2 h
    simp only [optMapList, Option.some.injEq] at h
    subst h
    rfl
  | cons a t ih =>
    intro l2 h
    simp only [optMapList] at h
    cases hfa : F a with
    | none => simp [hfa] at h
    | some b =>
      cases hmt : optMapList F t with
      | none => simp [hfa, hmt] at h
      | some t2 =>
        simp only [hfa, hmt, Option.map_some', Option.some.injEq] at h
        subst h
        simp only [List.map_cons, hF a b hfa, ih t2 hmt]

/-- `Chord.mapNotes` preserves the chord skeleton: quality and bass presence
survive, only the pitches change. -/
theorem mapNotes_skeleton (F : Note → Option Note) :
    ∀ c c2, Chord.mapNotes F c = some c2 → c2.skeleton = c.skeleton := by
  intro c c2 h
  unfold Chord.mapNotes at h
  cases hr : F c.root with
  | none => simp [hr] at h
  | some r2 =>
    cases hb : c.bass with
    | none =>
      simp only [hr, hb, Option.some.injEq] at h
      subst h
      simp [Chord.skeleton, hb]
    | some b =>
      cases hfb : F b with
      | none => simp [hr, hb, hfb] at h
      | some b2 =>
        simp only [hr, hb, hfb, Option.some.injEq] at h
        subst h
        simp [Chord.skeleton, hb]

/-- `Chunk.mapChord` with a skeleton-preserving chord function preserves the
chunk skeleton. -/
theorem mapChord_skeleton (f : Chord → Option Chord)
    (hf : ∀ a b, f a = some b → b.skeleton = a.skeleton) :
    ∀ ck ck2, Chunk.mapChord f ck = some ck2 → ck2.skeleton = ck.skeleton := by
  intro ck ck2 h
  unfold Chunk.mapChord at h
  cases hc : ck.chord with
  | none =>
    simp only [hc, Option.some.injEq] at h
    subst h
    rfl
  | some ch =>
    cases hfc : f ch with
    | none => simp [hc, hfc] at h
    | some ch2 =>
      simp only [hc, hfc, Option.some.injEq] at h
      subst h
      simp [Chunk.skeleton, hc, hf ch ch2 hfc]

/-- `Line.mapChords` with a skeleton-preserving chord function preserves the
line skeleton. -/
theorem mapChords_skeleton (f : Chord → Option Chord)
    (hf : ∀ a b, f a = some b → b.skeleton = a.skeleton) :
    ∀ l l2, Line.mapChords f l = some l2 → l2.skeleton = l.skeleton := by
  intro l l2 h
  cases l with
  | directive d =>
    simp only [Line.mapChords, Option.some.injEq] at h
    subst h
    rfl
  | content cks inl =>
    simp only [Line.mapChords, Option.map_eq_some'] at h
    obtain ⟨cks2, hm, rfl⟩ := h
    simp only [Line.skeleton]
    rw [optMapList_map_eq _ (mapChord_skeleton f hf) cks cks2 hm]

/-- Replacing the first Key directive's payload preserves every line skeleton. -/
theorem replaceFirstKey_skeleton (key : Scale) :
    ∀ ls ls2, replaceFirstKey ls key = some ls2 →
      ls2.map Line.skeleton = ls.map Line.skeleton := by
  intro ls
  induction ls with
  | nil => intro ls2 h; simp [replaceFirstKey] at h
  | cons l t ih =>
    intro ls2 h
    cases l with
    | directive d =>
      cases d with
      | key k =>
        simp only [replaceFirstKey, Option.some.injEq] at h
        subst h
        simp [Line.skeleton, Directive.skeleton]
      | title s =>
        simp only [replaceFirstKey, Option.map_eq_some'] at h
        obtain ⟨t2, hm, rfl⟩ := h
        simp [ih t2 hm]
      | comment s =>
        simp only [replaceFirstKey, Option.map_eq_some'] at h
        obtain ⟨t2, hm, rfl⟩ := h
        simp [ih t2 hm]
      | tempo n =>
        simp only [replaceFirstKey, Option.map_eq_some'] at h
        obtain ⟨t2, hm, rfl⟩ := h
        simp [ih t2 hm]
      | other s =>
        simp only [replaceFirstKey, Option.map_eq_some'] at h
        obtain ⟨t2, hm, rfl⟩ := h
        simp [ih t2 hm]
    | content cks inl =>
      simp only [replaceFirstKey, Option.map_eq_some'] at h
      obtain ⟨t2, hm, rfl⟩ := h
      simp [ih t2 hm]

/-- When the line list contains a Key directive, the replace loop of
`set_key` succeeds. -/
theorem replaceFirstKey_isSome (key newKey : Scale) :
    ∀ ls, chartKeyLines ls = some key → (replaceFirstKey ls newKey).isSome := by
  intro ls
  induction ls with
  | nil => intro h; simp [chartKeyLines] at h
  | cons l t ih =>
    intro h
    cases l with
    | directive d =>
      cases d with
      | key k => simp [replaceFirstKey]
      | title s =>
        simp only [chartKeyLines] at h
        simpa [replaceFirstKey] using ih h
      | comment s =>
        simp only [chartKeyLines] at h
        simpa [replaceFirstKey] using ih h
      | tempo n =>
        simp only [chartKeyLines] at h
        simpa [replaceFirstKey] using ih h
      | other s =>
        simp only [chartKeyLines] at h
        simpa [replaceFirstKey] using ih h
    | content cks inl =>
      simp only [chartKeyLines] at h
      simpa [replaceFirstKey] using ih h

/-- Claim C9: a successful `transpose_to` changes only chord root/bass pitches
and Key directive payloads — after erasing exactly those (`Line.skeleton`),
the transposed chart's lines are identical to the original's: same number and
order of lines, same variants and layout flags, same lyrics, same chord
qualities and bass presence, and all non-Key directives verbatim. -/
theorem transpose_frame (c c2 : Chart) (k : Scale) (h : c.transpose_to k = Except.ok c2) :
    c2.lines.map Line.skeleton = c.lines.map Line.skeleton := by
  unfold Chart.transpose_to at h
  cases hk : c.key with
  | none => simp [hk] at h
  | some old_key =>
    simp only [hk] at h
    cases ht : c.transform_all_notes
        (fun n => (n.as_scale_degree old_key).map (fun d => Note.letter (d.in_key k))) with
    | none => simp [ht] at h
    | some c3 =>
      simp only [ht, Except.ok.injEq] at h
      subst h
      unfold Chart.transform_all_notes Chart.transform_all_chords at ht
      simp only [Option.map_eq_some'] at ht
      obtain ⟨ls2, hm, hc3⟩ := ht
      have hskel : ls2.map Line.skeleton = c.lines.map Line.skeleton :=
        optMapList_map_eq _ (mapChords_skeleton _ (mapNotes_skeleton _)) c.lines ls2 hm
      have hkey3 : chartKeyLines ls2 = some old_key := by
        rw [mapChords_key_eq _ c.lines ls2 hm]
        exact hk
      have hlines3 : c3.lines = ls2 := by rw [← hc3]
      unfold Chart.set_key
      cases hrep : replaceFirstKey c3.lines k with
      | none =>
        rw [hlines3] at hrep
        have := replaceFirstKey_isSome old_key k ls2 hkey3
        rw [hrep] at this
        simp at this
      | some ls4 =>
        dsimp only
        rw [replaceFirstKey_skeleton k c3.lines ls4 hrep, hlines3, hskel]

/-- Claim C9 (witness): transposing a chart in G (one G-major chord over the
word "la") to A yields an A chord; the erased skeletons agree. -/
theorem transpose_frame_witness :
    (Chart.mk [.directive (.key ⟨⟨.A, ⟨0⟩⟩⟩),
        .content [⟨some ⟨.letter ⟨.A, ⟨0⟩⟩, ⟨['m']⟩, none⟩, ['l', 'a']⟩] true]).lines.map
          Line.skeleton
      = (Chart.mk [.directive (.key ⟨⟨.G, ⟨0⟩⟩⟩),
          .content [⟨some ⟨.letter ⟨.G, ⟨0⟩⟩, ⟨['m']⟩, none⟩, ['l', 'a']⟩] true]).lines.map
            Line.skeleton :=
  transpose_frame
    ⟨[.directive (.key ⟨⟨.G, ⟨0⟩⟩⟩),
      .content [⟨some ⟨.letter ⟨.G, ⟨0⟩⟩, ⟨['m']⟩, none⟩, ['l', 'a']⟩] true]⟩
    ⟨[.directive (.key ⟨⟨.A, ⟨0⟩⟩⟩),
      .content [⟨some ⟨.letter ⟨.A, ⟨0⟩⟩, ⟨['m']⟩, none⟩, ['l', 'a']⟩] true]⟩
    ⟨⟨.A, ⟨0⟩⟩⟩ rfl

/-! ## Renderer (`Display` impls in `src/chordpro/charts.rs` and `src/chords.rs`) -/

/-- `Display for Accidental`: `b` repeated for flats, `#` repeated for sharps,
empty for natural. -/
def Accidental.render (a : Accidental) : List Char :=
  if a.val < 0 then List.replicate (-a.val).toNat 'b' else List.replicate a.val.toNat '#'

/-- `Display for Letter` (via its `Debug` name): one upper-case character. -/
def Letter.render : Letter → Char
  | .C => 'C'
  | .D => 'D'
  | .E => 'E'
  | .F => 'F'
  | .G => 'G'
  | .A => 'A'
  | .B => 'B'

/-- `Display for LetterNote`: letter then accidental. -/
def LetterNote.render (n : LetterNote) : List Char := n.letter.render :: n.acc.render

/-- `Display for Scale`: its tonic letter note. -/
def Scale.render (k : Scale) : List Char := k.tonic.render

/-- `Display for ScaleDegree`: accidental then the decimal degree. -/
def ScaleDegree.render (d : ScaleDegree) : List Char :=
  d.acc.render ++ (Nat.repr d.degree).toList

/-- `Display for Note`. -/
def Note.render : Note → List Char
  | .letter n => n.render
  | .number d => d.render

/-- `Display for Chord` (from `src/chords.rs`): root, quality, then `/bass`
when a bass is present. -/
def Chord.render (c : Chord) : List Char :=
  c.root.render ++ c.quality.val ++
    (match c.bass with
     | some b => '/' :: b.render
     | none => [])

/-- `Display for Chunk`: `[chord]` when present, then the lyrics. -/
def Chunk.render (ck : Chunk) : List Char :=
  (match ck.chord with
   | some ch => '[' :: (ch.render ++ [']'])
   | none => []) ++ ck.lyrics

/-- Tag spellings used by the directive grammar and renderer. -/
def titleTag : List Char := ['t', 'i', 't', 'l', 'e']

/-- The `comment` tag. -/
def commentTag : List Char := ['c', 'o', 'm', 'm', 'e', 'n', 't']

/-- The `key` tag. -/
def keyTag : List Char := ['k', 'e', 'y']

/-- The `tempo` tag. -/
def tempoTag : List Char := ['t', 'e', 'm', 'p', 'o']

/-- Modelled from the spec: `Display for Directive` lives in
`src/chordpro/directives.rs`, which is not among the sources (only the old
revision `src/directives.rs`, without a `Display` impl, is).  Per the spec's
"Output text format: same directive syntax" and the Directive Model's
"parse/format symmetry", each directive renders as `{tag:value}` with the
payload's canonical display, and an unrecognized directive renders its stored
content back between braces. -/
def Directive.render : Directive → List Char
  | .title s => '{' :: titleTag ++ ':' :: s ++ ['}']
  | .comment s => '{' :: commentTag ++ ':' :: s ++ ['}']
  | .key k => '{' :: keyTag ++ ':' :: k.render ++ ['}']
  | .tempo n => '{' :: tempoTag ++ ':' :: (Nat.repr n).toList ++ ['}']
  | .other s => '{' :: s ++ ['}']

/-- The mutable state of the stacked-layout loop in `Display for Line`:
the chord line, the lyric line and the running column cursor. -/
structure StackedState where
  chordLine : List Char
  lyricLine : List Char
  index : Nat
deriving DecidableEq

/-- The `while len < index push ' '` padding loop. -/
def padTo (l : List Char) (n : Nat) : List Char := l ++ List.replicate (n - l.length) ' '

/-- One iteration of the stacked-layout loop in `Display for Line`: both
pads read the cursor at chunk entry; a chord append moves the cursor to the
chord line's new length plus one; the lyric append then maxes the cursor with
the lyric line's new length. -/
def stackedStep (st : StackedState) (ck : Chunk) : StackedState :=
  let chordLine := if ck.chord.isSome then padTo st.chordLine st.index else st.chordLine
  let lyricLine := if ck.lyrics ≠ [] then padTo st.lyricLine st.index else st.lyricLine
  match ck.chord with
  | some ch =>
    let chordLine2 := chordLine ++ ch.render
    let lyricLine2 := lyricLine ++ ck.lyrics
    ⟨chordLine2, lyricLine2, Nat.max (chordLine2.length + 1) lyricLine2.length⟩
  | none =>
    let lyricLine2 := lyricLine ++ ck.lyrics
    ⟨chordLine, lyricLine2, Nat.max st.index lyricLine2.length⟩

/-- The stacked branch of `Display for Line`: run the loop, emit the chord
line (when non-empty) above the lyric line. -/
def renderStacked (chunks : List Chunk) : List Char :=
  let st := chunks.foldl stackedStep ⟨[], [], 0⟩
  (if st.chordLine ≠ [] then st.chordLine ++ ['\n'] else []) ++ st.lyricLine

/-- `Display for Line`. -/
def Line.render : Line → List Char
  | .directive d => d.render
  | .content cks inl => if inl then (cks.map Chunk.render).flatten else renderStacked cks

/-- `Display for Chart`: `writeln!` for every line. -/
def Chart.render (c : Chart) : List Char :=
  (c.lines.map (fun l => l.render ++ ['\n'])).flatten

/-! ## Stacked-layout columns (claim C5) -/

/-- The column at which a chunk's lyric text is appended by `stackedStep`:
the length of the lyric line after the entry-cursor padding. -/
def lyricStartColumn (st : StackedState) (ck : Chunk) : Nat :=
  (if ck.lyrics ≠ [] then padTo st.lyricLine st.index else st.lyricLine).length

/-- The column at which a chunk's chord text is appended by `stackedStep`. -/
def chordStartColumn (st : StackedState) (ck : Chunk) : Nat :=
  (if ck.chord.isSome then padTo st.chordLine st.index else st.chordLine).length

/-- Padding to a column at or beyond the current length reaches it exactly. -/
theorem padTo_length_of_le (l : List Char) (n : Nat) (h : l.length ≤ n) :
    (padTo l n).length = n := by
  simp only [padTo, List.length_append, List.length_replicate]
  omega

/-- One loop iteration keeps the cursor at or above both line lengths. -/
theorem stackedStep_preserves (st : StackedState) (ck : Chunk)
    (h1 : st.chordLine.length ≤ st.index) (h2 : st.lyricLine.length ≤ st.index) :
    (stackedStep st ck).chordLine.length ≤ (stackedStep st ck).index
    ∧ (stackedStep st ck).lyricLine.length ≤ (stackedStep st ck).index := by
  unfold stackedStep
  cases hc : ck.chord with
  | some ch =>
    simp only [hc, Option.isSome_some, if_true]
    exact ⟨le_trans (Nat.le_succ _) (Nat.le_max_left _ _), Nat.le_max_right _ _⟩
  | none =>
    simp only [hc, Option.isSome_none, Bool.false_eq_true, if_false]
    exact ⟨le_trans h1 (Nat.le_max_left _ _), Nat.le_max_right _ _⟩

/-- Loop invariant of the stacked renderer: the cursor bounds both line
lengths. -/
theorem stacked_invariant (chunks : List Chunk) :
    ∀ st : StackedState,
    st.chordLine.length ≤ st.index → st.lyricLine.length ≤ st.index →
    (chunks.foldl stackedStep st).chordLine.length ≤ (chunks.foldl stackedStep st).index
    ∧ (chunks.foldl stackedStep st).lyricLine.length ≤ (chunks.foldl stackedStep st).index := by
  induction chunks with
  | nil => intro st h1 h2; exact ⟨h1, h2⟩
  | cons ck t ih =>
    intro st h1 h2
    simp only [List.foldl_cons]
    exact ih _ (stackedStep_preserves st ck h1 h2).1 (stackedStep_preserves st ck h1 h2).2

/-- Claim C5 (amended): in a stacked rendering, a chunk that carries a chord
and non-empty lyrics has its lyric text start at the running cursor at the
chunk's entry — the same column at which its own chord starts — not at the
preceding chord-line length plus one.  (The chord-line-length-plus-one rule
describes how the cursor is advanced for the following chunk, and the cursor
is additionally maxed with the lyric-line length.)  Chunks without a chord
never advance the cursor beyond their own lyric growth. -/
theorem stacked_column_amended (pre post : List Chunk) (ck : Chunk)
    (hc : ck.chord.isSome) (hl : ck.lyrics ≠ []) :
    ((pre ++ ck :: post).foldl stackedStep ⟨[], [], 0⟩
        = (ck :: post).foldl stackedStep (pre.foldl stackedStep ⟨[], [], 0⟩))
    ∧ lyricStartColumn (pre.foldl stackedStep ⟨[], [], 0⟩) ck
        = (pre.foldl stackedStep ⟨[], [], 0⟩).index
    ∧ chordStartColumn (pre.foldl stackedStep ⟨[], [], 0⟩) ck
        = (pre.foldl stackedStep ⟨[], [], 0⟩).index := by
  have hinv := stacked_invariant pre ⟨[], [], 0⟩ (by simp) (by simp)
  refine ⟨by rw [List.foldl_append], ?_, ?_⟩
  · unfold lyricStartColumn
    rw [if_pos hl]
    exact padTo_length_of_le _ _ hinv.2
  · unfold chordStartColumn
    rw [if_pos hc]
    exact padTo_length_of_le _ _ hinv.1

/-- The chunk `[G]abc` used by the C5 witness and counterexample. -/
def chunkGabc : Chunk := ⟨some ⟨.letter ⟨.G, ⟨0⟩⟩, ⟨[]⟩, none⟩, ['a', 'b', 'c']⟩

/-- The chunk `[D]de` used by the C5 witness and counterexample. -/
def chunkDde : Chunk := ⟨some ⟨.letter ⟨.D, ⟨0⟩⟩, ⟨[]⟩, none⟩, ['d', 'e']⟩

/-- Claim C5 (witness): the amended theorem at the line `[G]abc[D]de` after
the first chunk: the second chunk's lyrics and chord both start at the cursor
after chunk 1. -/
theorem stacked_column_amended_witness :
    (([chunkGabc] ++ chunkDde :: []).foldl stackedStep ⟨[], [], 0⟩
        = (chunkDde :: []).foldl stackedStep ([chunkGabc].foldl stackedStep ⟨[], [], 0⟩))
    ∧ lyricStartColumn ([chunkGabc].foldl stackedStep ⟨[], [], 0⟩) chunkDde
        = ([chunkGabc].foldl stackedStep ⟨[], [], 0⟩).index
    ∧ chordStartColumn ([chunkGabc].foldl stackedStep ⟨[], [], 0⟩) chunkDde
        = ([chunkGabc].foldl stackedStep ⟨[], [], 0⟩).index :=
  stacked_column_amended [chunkGabc] [] chunkDde (by decide) (by decide)

/-- Claim C5 (counterexample): the stacked line `[G]abc[D]de` renders as the
chord line `G  D` over the lyric line `abcde`; the second chunk carries chord
D and its lyric text begins at column 3, while the chord-line text rendered
before it (`G`) has length 1, so the claimed column rule `1 + 1 = 2` is false
at this input. -/
theorem stacked_column_cex :
    renderStacked [chunkGabc, chunkDde]
      = ['G', ' ', ' ', 'D', '\n', 'a', 'b', 'c', 'd', 'e']
    ∧ lyricStartColumn (stackedStep ⟨[], [], 0⟩ chunkGabc) chunkDde = 3
    ∧ (stackedStep ⟨[], [], 0⟩ chunkGabc).chordLine.length + 1 = 2
    ∧ (3 : Nat) ≠ 2 := by
  refine ⟨by decide, by decide, by decide, by decide⟩

/-! ## Parser (`src/chordpro/parser.rs`), over `List Char`.

Each parser maps the remaining input to `none` (a nom error) or to the pair
of the rest of the input and the parsed value.  The `many`-style nom
combinators carry explicit fuel (always called with more fuel than the input
length; every loop iteration consumes input, mirroring nom's zero-consumption
"infinite loop check" errors). -/

/-- nom `tag`: match a literal prefix. -/
def ptag (pat s : List Char) : Option (List Char × List Char) :=
  if pat.isPrefixOf s then some (s.drop pat.length, pat) else none

/-- nom `take_until`: consume up to (not including) the first occurrence of
the pattern; fail when the pattern never occurs. -/
def ptakeUntil (pat : List Char) : List Char → Option (List Char × List Char)
  | [] => if pat.isPrefixOf [] then some ([], []) else none
  | c :: rest =>
    if pat.isPrefixOf (c :: rest) then some (c :: rest, [])
    else (ptakeUntil pat rest).map (fun r => (r.1, c :: r.2))

/-- nom `take_while`: never fails. -/
def ptakeWhile (p : Char → Bool) (s : List Char) : Option (List Char × List Char) :=
  some (s.dropWhile p, s.takeWhile p)

/-- nom `take_while1`: fails on an empty match. -/
def ptakeWhile1 (p : Char → Bool) (s : List Char) : Option (List Char × List Char) :=
  match s.takeWhile p with
  | [] => none
  | v => some (s.dropWhile p, v)

/-- nom `line_ending`: LF or CRLF. -/
def plineEnding (s : List Char) : Option (List Char × List Char) :=
  match s with
  | '\n' :: rest => some (rest, ['\n'])
  | '\r' :: '\n' :: rest => some (rest, ['\r', '\n'])
  | _ => none

/-- The characters of nom `space0` / `space1`: space and tab. -/
def isNomSpace (c : Char) : Bool := c = ' ' || c = '\t'

/-- nom `space0`. -/
def pspace0 (s : List Char) : Option (List Char × List Char) := ptakeWhile isNomSpace s

/-- nom `space1`. -/
def pspace1 (s : List Char) : Option (List Char × List Char) := ptakeWhile1 isNomSpace s

/-- nom `eof`. -/
def peof (s : List Char) : Option (List Char × Unit) :=
  match s with
  | [] => some ([], ())
  | _ => none

/-- The `one_of("CDEFGAB")` character table of `letter`. -/
def charToLetter (c : Char) : Option Letter :=
  if c = 'C' then some .C
  else if c = 'D' then some .D
  else if c = 'E' then some .E
  else if c = 'F' then some .F
  else if c = 'G' then some .G
  else if c = 'A' then some .A
  else if c = 'B' then some .B
  else none

/-- `letter`. -/
def pletter (s : List Char) : Option (List Char × Letter) :=
  match s with
  | [] => none
  | c :: rest =>
    match charToLetter c with
    | some l => some (rest, l)
    | none => none

/-- `accidental`: `bb` / `b` / `##` / `#` / nothing, in that alternation
order. -/
def paccidental (s : List Char) : Option (List Char × Accidental) :=
  match ptag ['b', 'b'] s with
  | some (r, _) => some (r, ⟨-2⟩)
  | none =>
    match ptag ['b'] s with
    | some (r, _) => some (r, ⟨-1⟩)
    | none =>
      match ptag ['#', '#'] s with
      | some (r, _) => some (r, ⟨2⟩)
      | none =>
        match ptag ['#'] s with
        | some (r, _) => some (r, ⟨1⟩)
        | none => some (s, ⟨0⟩)

/-- `letter_note`. -/
def pletterNote (s : List Char) : Option (List Char × LetterNote) :=
  match pletter s with
  | none => none
  | some (s1, l) =>
    match paccidental s1 with
    | none => none
    | some (s2, a) => some (s2, ⟨l, a⟩)

/-- The `one_of("1234567")` digit table of `bare_scale_degree`. -/
def charToDegree (c : Char) : Option Nat :=
  if c = '1' then some 1
  else if c = '2' then some 2
  else if c = '3' then some 3
  else if c = '4' then some 4
  else if c = '5' then some 5
  else if c = '6' then some 6
  else if c = '7' then some 7
  else none

/-- `bare_scale_degree`. -/
def pbareScaleDegree (s : List Char) : Option (List Char × Nat) :=
  match s with
  | [] => none
  | c :: rest =>
    match charToDegree c with
    | some d => some (rest, d)
    | none => none

/-- `scale_degree`: accidental, then digit, through `ScaleDegree::new`. -/
def pscaleDegree (s : List Char) : Option (List Char × ScaleDegree) :=
  match paccidental s with
  | none => none
  | some (s1, a) =>
    match pbareScaleDegree s1 with
    | none => none
    | some (s2, d) =>
      match ScaleDegree.new d a with
      | some sd => some (s2, sd)
      | none => none

/-- `note`: letter note, else scale degree. -/
def pnote (s : List Char) : Option (List Char × Note) :=
  match pletterNote s with
  | some (r, n) => some (r, .letter n)
  | none =>
    match pscaleDegree s with
    | some (r, d) => some (r, .number d)
    | none => none

/-- The quality character class: digits or `"Majminsusadd+-"`. -/
def qualityChars : List Char :=
  ['M', 'a', 'j', 'm', 'i', 'n', 's', 'u', 's', 'a', 'd', 'd', '+', '-']

/-- Membership in the quality class. -/
def isQualityChar (c : Char) : Bool := c.isDigit || qualityChars.contains c

/-- `chord_quality`. -/
def pchordQuality (s : List Char) : Option (List Char × ChordQuality) :=
  match ptakeWhile isQualityChar s with
  | some (r, v) => some (r, ⟨v⟩)
  | none => none

/-- `chord`: note, quality, optional `/`+note (the `opt` backtracks the
slash when no note follows it). -/
def pchord (s : List Char) : Option (List Char × Chord) :=
  match pnote s with
  | none => none
  | some (s1, root) =>
    match pchordQuality s1 with
    | none => none
    | some (s2, q) =>
      match ptag ['/'] s2 with
      | none => some (s2, ⟨root, q, none⟩)
      | some (s3, _) =>
        match pnote s3 with
        | none => some (s2, ⟨root, q, none⟩)
        | some (s4, b) => some (s4, ⟨root, q, some b⟩)

/-- `boxed_chord`: `[` chord `]`. -/
def pboxedChord (s : List Char) : Option (List Char × Chord) :=
  match ptag ['['] s with
  | none => none
  | some (s1, _) =>
    match pchord s1 with
    | none => none
    | some (s2, ch) =>
      match ptag [']'] s2 with
      | none => none
      | some (s3, _) => some (s3, ch)

/-- `is_lyrics_char`: anything but `[` and line breaks. -/
def is_lyrics_char (c : Char) : Bool := c != '[' && c != '\r' && c != '\n'

/-- `chunk`: a boxed chord followed by a lyric run, or a non-empty lyric run. -/
def pchunk (s : List Char) : Option (List Char × Chunk) :=
  match pboxedChord s with
  | some (s1, ch) =>
    match ptakeWhile is_lyrics_char s1 with
    | some (s2, ly) => some (s2, ⟨some ch, ly⟩)
    | none => none
  | none =>
    match ptakeWhile1 is_lyrics_char s with
    | some (s1, ly) => some (s1, ⟨none, ly⟩)
    | none => none

/-- nom `many0` (with the zero-consumption check), fueled. -/
def pmany0 (f : List Char → Option (List Char × α)) :
    Nat → List Char → Option (List Char × List α)
  | 0, _ => none
  | fuel + 1, s =>
    match f s with
    | none => some (s, [])
    | some (rest, a) =>
      if rest.length < s.length then
        (pmany0 f fuel rest).map (fun r => (r.1, a :: r.2))
      else none

/-- `inline_content`: `many0(chunk)`. -/
def pinlineContent (s : List Char) : Option (List Char × List Chunk) :=
  pmany0 pchunk (s.length + 1) s

/-- `content.split_once(':')`. -/
def splitOnceColon : List Char → Option (List Char × List Char)
  | [] => none
  | c :: rest =>
    if c = ':' then some ([], rest)
    else (splitOnceColon rest).map (fun r => (c :: r.1, r.2))

/-- `FromStr for Scale` (chordpro revision): run the nom `scale` parser and
discard any unconsumed input. -/
def scaleFromStr (s : List Char) : Option Scale :=
  match pletterNote s with
  | some (_, n) => some ⟨n⟩
  | none => none

/-- `str::trim`. -/
def rustTrim (s : List Char) : List Char :=
  ((s.dropWhile Char.isWhitespace).reverse.dropWhile Char.isWhitespace).reverse

/-- The decimal value of a digit string. -/
def digitsVal (s : List Char) : Nat :=
  s.foldl (fun acc c => 10 * acc + (c.toNat - 48)) 0

/-- `u32::from_str`: optional `+`, one or more digits, value below `2^32`. -/
def parseU32 (s : List Char) : Option Nat :=
  let t := match s with
    | '+' :: r => r
    | _ => s
  if t = [] then none
  else if t.all Char.isDigit then
    if digitsVal t < 4294967296 then some (digitsVal t) else none
  else none

/-- The dispatch on the brace-stripped directive content: recognized tags
whose value parses produce the typed directive; everything else (including an
unparseable key or tempo value) falls back to `Other` with the raw content. -/
def directiveOfContent (content : List Char) : Directive :=
  match splitOnceColon content with
  | some (l, r) =>
    if l = titleTag then .title r
    else if l = commentTag then .comment r
    else if l = keyTag then
      match scaleFromStr r with
      | some k => .key k
      | none => .other content
    else if l = tempoTag then
      match parseU32 (rustTrim r) with
      | some n => .tempo n
      | none => .other content
    else .other content
  | none => .other content

/-- `directive`: `{` + content up to `}` + `}`, then the dispatch. -/
def pdirective (s : List Char) : Option (List Char × Directive) :=
  match ptag ['{'] s with
  | none => none
  | some (s1, _) =>
    match ptakeUntil ['}'] s1 with
    | none => none
    | some (s2, content) =>
      match ptag ['}'] s2 with
      | none => none
      | some (s3, _) => some (s3, directiveOfContent content)

/-- `usize::MAX`. -/
def usizeMax : Nat := 18446744073709551615

/-- The per-chord loop of `chords_over_lyrics_content`'s chunk assembly:
chunk `i` spans the clamped offsets `[min(o_i, len), min(o_(i+1), len))`, the
last chord's span extending to the end of the lyric text (`usize::MAX`
clamped).  The slice is embedded as `take`/`drop` (the parser's offsets are
strictly increasing, so the Rust slice bounds are always ordered). -/
def assembleGo (lyrics : List Char) : List (Nat × Chord) → List Chunk
  | [] => []
  | (o, ch) :: rest =>
    let start := Nat.min o lyrics.length
    let stop := Nat.min
      (match rest with
       | (n, _) :: _ => n
       | [] => usizeMax) lyrics.length
    ⟨some ch, (lyrics.take stop).drop start⟩ :: assembleGo lyrics rest

/-- The chunk assembly of `chords_over_lyrics_content`: an initial chordless
chunk holding the lyric text before the first chord whenever the first
chord's offset is nonzero, then one chunk per chord. -/
def assembleChunks (chords : List (Nat × Chord)) (lyrics : List Char) : List Chunk :=
  match chords with
  | [] => []
  | (o0, _) :: _ =>
    (if o0 ≠ 0 then [⟨none, lyrics.take (Nat.min o0 lyrics.length)⟩] else []) ++
      assembleGo lyrics chords

/-- The chord-list element of `chords_over_lyrics_content`: record the column
offset (input consumed so far), then a boxed or bare chord. -/
def pchordElem (startLen : Nat) (s : List Char) : Option (List Char × (Nat × Chord)) :=
  let index := startLen - s.length
  match pboxedChord s with
  | some (r, ch) => some (r, (index, ch))
  | none =>
    match pchord s with
    | some (r, ch) => some (r, (index, ch))
    | none => none

/-- The loop of nom `separated_list1` after its first element (with the
separator zero-consumption check), fueled. -/
def psepLoop (startLen : Nat) : Nat → List Char → Option (List Char × List (Nat × Chord))
  | 0, _ => none
  | fuel + 1, s =>
    match pspace1 s with
    | none => some (s, [])
    | some (s1, _) =>
      if s1.length < s.length then
        match pchordElem startLen s1 with
        | none => some (s, [])
        | some (s2, a) => (psepLoop startLen fuel s2).map (fun r => (r.1, a :: r.2))
      else none

/-- nom `separated_list1(space1, ...)` for the chord row. -/
def psepList1 (startLen : Nat) (s : List Char) : Option (List Char × List (Nat × Chord)) :=
  match pchordElem startLen s with
  | none => none
  | some (s1, a) => (psepLoop startLen (s1.length + 1) s1).map (fun r => (r.1, a :: r.2))

/-- The lyric-row alternative of `chords_over_lyrics_content`: end of input,
or a line break followed by end of input, or a line break followed by the
next physical line. -/
def plyricsTail (s : List Char) : Option (List Char × List Char) :=
  match peof s with
  | some (r, _) => some (r, [])
  | none =>
    match plineEnding s with
    | none => none
    | some (s1, _) =>
      match peof s1 with
      | some (r, _) => some (r, [])
      | none => ptakeWhile (fun c => c != '\r' && c != '\n') s1

/-- `chords_over_lyrics_content`: only with extensions enabled (the
thread-local toggle is embedded as the explicit `ext` argument); leading
space, the chord row with offsets, trailing space, the lyric row, then the
chunk assembly. -/
def pchordsOverLyrics (ext : Bool) (s : List Char) : Option (List Char × List Chunk) :=
  match ext with
  | false => none
  | true =>
    match pspace0 s with
    | none => none
    | some (s1, _) =>
      match psepList1 s.length s1 with
      | none => none
      | some (s2, chords) =>
        match pspace0 s2 with
        | none => none
        | some (s3, _) =>
          match plyricsTail s3 with
          | none => none
          | some (s4, lyrics) => some (s4, assembleChunks chords lyrics)

/-- `line`: directive, else chords-over-lyrics (stacked), else inline. -/
def pline (ext : Bool) (s : List Char) : Option (List Char × Line) :=
  match pdirective s with
  | some (r, d) => some (r, .directive d)
  | none =>
    match pchordsOverLyrics ext s with
    | some (r, cks) => some (r, .content cks false)
    | none =>
      match pinlineContent s with
      | some (r, cks) => some (r, .content cks true)
      | none => none

/-- One iteration of `chart`: `(line, opt(line_ending)).map(fst)`. -/
def plineStep (ext : Bool) (s : List Char) : Option (List Char × Line) :=
  match pline ext s with
  | none => none
  | some (s1, l) =>
    match plineEnding s1 with
    | some (s2, _) => some (s2, l)
    | none => some (s1, l)

/-- nom `many_till(..., eof)` (with the zero-consumption check), fueled. -/
def pchartLoop (ext : Bool) : Nat → List Char → Option (List Char × List Line)
  | 0, _ => none
  | fuel + 1, s =>
    match peof s with
    | some (r, _) => some (r, [])
    | none =>
      match plineStep ext s with
      | none => none
      | some (s1, l) =>
        if s1.length < s.length then
          (pchartLoop ext fuel s1).map (fun r => (r.1, l :: r.2))
        else none

/-- `chart` (the `FromStr for Chart` entry point, with the extensions toggle
made explicit). -/
def pchart (ext : Bool) (s : List Char) : Option (List Char × Chart) :=
  match pchartLoop ext (s.length + 1) s with
  | none => none
  | some (r, ls) => some (r, ⟨ls⟩)

/-- Claim C8: the directive line `{foo:bar}` parses (successfully, not as an
error) to `Other("foo:bar")`, and `{key:Z}` — whose value does not parse as a
key — parses to `Other("key:Z")`, not to a `Key` directive. -/
theorem directive_lenient_fallback :
    pdirective ['{', 'f', 'o', 'o', ':', 'b', 'a', 'r', '}']
      = some ([], Directive.other ['f', 'o', 'o', ':', 'b', 'a', 'r'])
    ∧ pdirective ['{', 'k', 'e', 'y', ':', 'Z', '}']
      = some ([], Directive.other ['k', 'e', 'y', ':', 'Z']) := by
  refine ⟨by decide, by decide⟩

/-! ## Chords-over-lyrics chunking (claim C6) -/

/-- Placeholder pair for out-of-range `getD` indexing in `chunksSpec` (never
reached for indices below the length). -/
def dfltChord : Nat × Chord := (0, ⟨Note.number ⟨1, ⟨0⟩⟩, ⟨[]⟩, none⟩)

/-- The chunk list described by claim C6, written from the claim's words: an
initial chordless chunk with lyrics `L[0..min(o_0,|L|)]` if and only if `o_0`
is nonzero, followed by one chunk per chord `i` whose lyrics are
`L[min(o_i,|L|)..min(o_(i+1),|L|)]`, the last chord's span extending to the
end of `L`. -/
def chunksSpec (chords : List (Nat × Chord)) (L : List Char) : List Chunk :=
  match chords with
  | [] => []
  | (o0, _) :: _ =>
    (if o0 ≠ 0 then [⟨none, L.take (Nat.min o0 L.length)⟩] else []) ++
      (List.range chords.length).map (fun i =>
        ⟨some ((chords.getD i dfltChord).2),
         (L.take (if i + 1 < chords.length
                  then Nat.min (chords.getD (i + 1) dfltChord).1 L.length
                  else L.length)).drop (Nat.min (chords.getD i dfltChord).1 L.length)⟩)

/-- `Nat::min` with the smaller value on the right. -/
theorem nat_min_eq_right_of_le {a b : Nat} (h : b ≤ a) : Nat.min a b = b := by
  simp [Nat.min]
  omega

theorem assembleGo_eq_spec (L : List Char) (hlen : L.length ≤ usizeMax) :
    ∀ chords : List (Nat × Chord),
      assembleGo L chords = (List.range chords.length).map (fun i =>
        ⟨some ((chords.getD i dfltChord).2),
         (L.take (if i + 1 < chords.length
                  then Nat.min (chords.getD (i + 1) dfltChord).1 L.length
                  else L.length)).drop (Nat.min (chords.getD i dfltChord).1 L.length)⟩) := by
  intro chords
  induction chords with
  | nil => simp [assembleGo]
  | cons hd t ih =>
    obtain ⟨o, ch⟩ := hd
    rw [List.length_cons, List.range_succ_eq_map, List.map_cons, List.map_map]
    unfold assembleGo
    dsimp only
    congr 1
    · simp only [List.getD_cons_zero]
      cases t with
      | nil =>
        simp only [List.length_nil]
        rw [if_neg (by omega)]
        simp [nat_min_eq_right_of_le hlen]
      | cons hd2 t2 =>
        obtain ⟨n2, c2⟩ := hd2
        rw [if_pos (by simp)]
        simp [List.getD_cons_succ, List.getD_cons_zero]
    · rw [ih]
      apply List.map_congr_left
      intro i hi
      have hlt : i < t.length := List.mem_range.mp hi
      simp only [Function.comp_apply, Nat.succ_eq_add_one, List.getD_cons_succ]
      by_cases hcase : i + 1 < t.length
      · rw [if_pos hcase, if_pos (by omega)]
      · rw [if_neg hcase, if_neg (by omega)]

/-- Claim C6: the chunk assembly of `chords_over_lyrics_content` (the parser
maps its parsed chord row and lyric row through `assembleChunks`) produces
exactly the claimed chunk list: an initial chordless chunk iff the first
offset is nonzero, then one chunk per chord spanning the clamped offsets,
with the last span running to the end of the lyric text — so a trailing
chord whose offset is at or beyond the lyric length receives an
empty-lyrics chunk.  The hypothesis bounds the lyric length by `usize::MAX`,
which holds for every actual Rust string. -/
theorem chords_over_lyrics_chunking (chords : List (Nat × Chord)) (L : List Char)
    (hne : chords ≠ []) (hlen : L.length ≤ usizeMax) :
    assembleChunks chords L = chunksSpec chords L := by
  cases chords with
  | nil => exact absurd rfl hne
  | cons hd t =>
    obtain ⟨o0, ch0⟩ := hd
    unfold assembleChunks chunksSpec
    rw [assembleGo_eq_spec L hlen]

/-- Claim C6 (witness): a single chord at offset 2 over the lyric `ab`:
the initial chordless chunk takes the whole lyric text and the chord's own
chunk is empty. -/
theorem chords_over_lyrics_chunking_witness :
    assembleChunks [(2, ⟨.letter ⟨.G, ⟨0⟩⟩, ⟨[]⟩, none⟩)] ['a', 'b']
      = chunksSpec [(2, ⟨.letter ⟨.G, ⟨0⟩⟩, ⟨[]⟩, none⟩)] ['a', 'b'] :=
  chords_over_lyrics_chunking [(2, ⟨.letter ⟨.G, ⟨0⟩⟩, ⟨[]⟩, none⟩)] ['a', 'b']
    (by decide) (by decide)

/-! ## Inline round-trip (claim C4): token-level lemmas -/

/-- A successful `tag` consumed exactly the pattern. -/
theorem ptag_eq (pat s r v : List Char) (h : ptag pat s = some (r, v)) :
    v = pat ∧ pat ++ r = s := by
  unfold ptag at h
  split at h
  case isTrue hpre =>
    simp only [Option.some.injEq, Prod.mk.injEq] at h
    obtain ⟨h1, h2⟩ := h
    obtain ⟨t, rfl⟩ := List.isPrefixOf_iff_prefix.mp hpre
    subst h2
    rw [← h1, List.drop_left]
    exact ⟨rfl, rfl⟩
  case isFalse => cases h

/-- A successful `accidental` consumed exactly the rendered accidental. -/
theorem paccidental_rt (s r : List Char) (a : Accidental)
    (h : paccidental s = some (r, a)) : a.render ++ r = s := by
  unfold paccidental at h
  split at h
  next r0 v0 heq =>
    simp only [Option.some.injEq, Prod.mk.injEq] at h
    obtain ⟨rfl, rfl⟩ := h
    obtain ⟨_, hpre⟩ := ptag_eq _ _ _ _ heq
    exact hpre
  next hne1 =>
    split at h
    next r0 v0 heq =>
      simp only [Option.some.injEq, Prod.mk.injEq] at h
      obtain ⟨rfl, rfl⟩ := h
      obtain ⟨_, hpre⟩ := ptag_eq _ _ _ _ heq
      exact hpre
    next hne2 =>
      split at h
      next r0 v0 heq =>
        simp only [Option.some.injEq, Prod.mk.injEq] at h
        obtain ⟨rfl, rfl⟩ := h
        obtain ⟨_, hpre⟩ := ptag_eq _ _ _ _ heq
        exact hpre
      next hne3 =>
        split at h
        next r0 v0 heq =>
          simp only [Option.some.injEq, Prod.mk.injEq] at h
          obtain ⟨rfl, rfl⟩ := h
          obtain ⟨_, hpre⟩ := ptag_eq _ _ _ _ heq
          exact hpre
        next hne4 =>
          simp only [Option.some.injEq, Prod.mk.injEq] at h
          obtain ⟨rfl, rfl⟩ := h
          rfl

/-- A letter recognized by `one_of("CDEFGAB")` renders back to its source
character. -/
theorem charToLetter_render (c : Char) (l : Letter) (h : charToLetter c = some l) :
    l.render = c := by
  unfold charToLetter at h
  split_ifs at h <;>
    first
    | exact Option.noConfusion h
    | (injection h with h; subst h; simp_all [Letter.render])

/-- A successful `letter` consumed exactly the rendered letter. -/
theorem pletter_rt (s r : List Char) (l : Letter) (h : pletter s = some (r, l)) :
    l.render :: r = s := by
  unfold pletter at h
  split at h
  · cases h
  next c rest =>
    split at h
    next l0 heq =>
      simp only [Option.some.injEq, Prod.mk.injEq] at h
      obtain ⟨rfl, rfl⟩ := h
      rw [charToLetter_render c _ heq]
    next => cases h

/-- A successful `letter_note` consumed exactly the rendered letter note. -/
theorem pletterNote_rt (s r : List Char) (n : LetterNote)
    (h : pletterNote s = some (r, n)) : n.render ++ r = s := by
  unfold pletterNote at h
  cases h1 : pletter s with
  | none => simp only [h1] at h; exact Option.noConfusion h
  | some res1 =>
    obtain ⟨s1, l⟩ := res1
    simp only [h1] at h
    cases h2 : paccidental s1 with
    | none => simp only [h2] at h; exact Option.noConfusion h
    | some res2 =>
      obtain ⟨s2, a⟩ := res2
      simp only [h2, Option.some.injEq, Prod.mk.injEq] at h
      obtain ⟨rfl, rfl⟩ := h
      rw [← pletter_rt s s1 l h1, ← paccidental_rt s1 s2 a h2]
      rfl

/-- A digit recognized by `one_of("1234567")` renders back (via `Nat.repr`)
to its source character. -/
theorem charToDegree_repr (c : Char) (d : Nat) (h : charToDegree c = some d) :
    (Nat.repr d).toList = [c] := by
  unfold charToDegree at h
  split_ifs at h <;>
    first
    | exact Option.noConfusion h
    | (injection h with h; subst h; simp_all; decide)

/-- A successful `bare_scale_degree` consumed exactly the degree digit. -/
theorem pbareScaleDegree_rt (s r : List Char) (d : Nat)
    (h : pbareScaleDegree s = some (r, d)) : (Nat.repr d).toList ++ r = s := by
  unfold pbareScaleDegree at h
  split at h
  · cases h
  next c rest =>
    split at h
    next d0 heq =>
      simp only [Option.some.injEq, Prod.mk.injEq] at h
      obtain ⟨rfl, rfl⟩ := h
      rw [charToDegree_repr c _ heq]
      rfl
    next => cases h

/-- `ScaleDegree::new` returns its arguments on success. -/
theorem scaleDegree_new_eq (d : Nat) (a : Accidental) (sd : ScaleDegree)
    (h : ScaleDegree.new d a = some sd) : sd = ⟨d, a⟩ := by
  unfold ScaleDegree.new at h
  split at h
  · simp only [Option.some.injEq] at h
    exact h.symm
  · cases h

/-- A successful `scale_degree` consumed exactly the rendered degree. -/
theorem pscaleDegree_rt (s r : List Char) (sd : ScaleDegree)
    (h : pscaleDegree s = some (r, sd)) : sd.render ++ r = s := by
  unfold pscaleDegree at h
  cases h1 : paccidental s with
  | none => simp only [h1] at h; exact Option.noConfusion h
  | some res1 =>
    obtain ⟨s1, a⟩ := res1
    simp only [h1] at h
    cases h2 : pbareScaleDegree s1 with
    | none => simp only [h2] at h; exact Option.noConfusion h
    | some res2 =>
      obtain ⟨s2, d⟩ := res2
      simp only [h2] at h
      cases h3 : ScaleDegree.new d a with
      | none => simp only [h3] at h; exact Option.noConfusion h
      | some sd0 =>
        simp only [h3, Option.some.injEq, Prod.mk.injEq] at h
        obtain ⟨rfl, rfl⟩ := h
        rw [scaleDegree_new_eq d a sd0 h3]
        show a.render ++ (Nat.repr d).toList ++ s2 = s
        rw [List.append_assoc, pbareScaleDegree_rt s1 s2 d h2, paccidental_rt s s1 a h1]

/-- A successful `note` consumed exactly the rendered note. -/
theorem pnote_rt (s r : List Char) (n : Note) (h : pnote s = some (r, n)) :
    n.render ++ r = s := by
  unfold pnote at h
  cases h1 : pletterNote s with
  | some res1 =>
    obtain ⟨s1, ln⟩ := res1
    simp only [h1, Option.some.injEq, Prod.mk.injEq] at h
    obtain ⟨rfl, rfl⟩ := h
    exact pletterNote_rt _ _ _ h1
  | none =>
    simp only [h1] at h
    cases h2 : pscaleDegree s with
    | none => simp only [h2] at h; exact Option.noConfusion h
    | some res2 =>
      obtain ⟨s2, sd⟩ := res2
      simp only [h2, Option.some.injEq, Prod.mk.injEq] at h
      obtain ⟨rfl, rfl⟩ := h
      exact pscaleDegree_rt _ _ _ h2

/-- A successful `chord_quality` consumed exactly the quality string. -/
theorem pchordQuality_rt (s r : List Char) (q : ChordQuality)
    (h : pchordQuality s = some (r, q)) : q.val ++ r = s := by
  unfold pchordQuality ptakeWhile at h
  simp only [Option.some.injEq, Prod.mk.injEq] at h
  obtain ⟨rfl, rfl⟩ := h
  show List.takeWhile isQualityChar s ++ List.dropWhile isQualityChar s = s
  exact List.takeWhile_append_dropWhile isQualityChar s

/-- A successful `chord` consumed exactly the rendered chord. -/
theorem pchord_rt (s r : List Char) (c : Chord) (h : pchord s = some (r, c)) :
    c.render ++ r = s := by
  unfold pchord at h
  cases h1 : pnote s with
  | none => simp only [h1] at h; exact Option.noConfusion h
  | some res1 =>
    obtain ⟨s1, root⟩ := res1
    simp only [h1] at h
    cases h2 : pchordQuality s1 with
    | none => simp only [h2] at h; exact Option.noConfusion h
    | some res2 =>
      obtain ⟨s2, q⟩ := res2
      simp only [h2] at h
      cases h3 : ptag ['/'] s2 with
      | none =>
        simp only [h3, Option.some.injEq, Prod.mk.injEq] at h
        obtain ⟨rfl, rfl⟩ := h
        show root.render ++ q.val ++ [] ++ s2 = s
        rw [List.append_nil, List.append_assoc, pchordQuality_rt s1 s2 q h2,
          pnote_rt s s1 root h1]
      | some res3 =>
        obtain ⟨s3, slash⟩ := res3
        simp only [h3] at h
        cases h4 : pnote s3 with
        | none =>
          simp only [h4, Option.some.injEq, Prod.mk.injEq] at h
          obtain ⟨rfl, rfl⟩ := h
          show root.render ++ q.val ++ [] ++ s2 = s
          rw [List.append_nil, List.append_assoc, pchordQuality_rt s1 s2 q h2,
            pnote_rt s s1 root h1]
        | some res4 =>
          obtain ⟨s4, b⟩ := res4
          simp only [h4, Option.some.injEq, Prod.mk.injEq] at h
          obtain ⟨rfl, rfl⟩ := h
          obtain ⟨hv, hpre⟩ := ptag_eq _ _ _ _ h3
          show root.render ++ q.val ++ ('/' :: b.render) ++ s4 = s
          rw [← pnote_rt s s1 root h1, ← pchordQuality_rt s1 s2 q h2, ← hpre,
            ← pnote_rt s3 s4 b h4]
          simp

/-- A successful `boxed_chord` consumed exactly `[` + chord + `]`. -/
theorem pboxedChord_rt (s r : List Char) (c : Chord)
    (h : pboxedChord s = some (r, c)) : '[' :: (c.render ++ [']']) ++ r = s := by
  unfold pboxedChord at h
  cases h1 : ptag ['['] s with
  | none => simp only [h1] at h; exact Option.noConfusion h
  | some res1 =>
    obtain ⟨s1, v1⟩ := res1
    simp only [h1] at h
    cases h2 : pchord s1 with
    | none => simp only [h2] at h; exact Option.noConfusion h
    | some res2 =>
      obtain ⟨s2, ch⟩ := res2
      simp only [h2] at h
      cases h3 : ptag [']'] s2 with
      | none => simp only [h3] at h; exact Option.noConfusion h
      | some res3 =>
        obtain ⟨s3, v3⟩ := res3
        simp only [h3, Option.some.injEq, Prod.mk.injEq] at h
        obtain ⟨rfl, rfl⟩ := h
        obtain ⟨_, hpre1⟩ := ptag_eq _ _ _ _ h1
        obtain ⟨_, hpre3⟩ := ptag_eq _ _ _ _ h3
        rw [← hpre1, ← pchord_rt s1 s2 _ h2, ← hpre3]
        simp

/-- A successful `chunk` consumed exactly the rendered chunk. -/
theorem pchunk_rt (s r : List Char) (ck : Chunk) (h : pchunk s = some (r, ck)) :
    ck.render ++ r = s := by
  unfold pchunk at h
  cases h1 : pboxedChord s with
  | some res1 =>
    obtain ⟨s1, ch⟩ := res1
    simp only [h1] at h
    unfold ptakeWhile at h
    simp only [Option.some.injEq, Prod.mk.injEq] at h
    obtain ⟨rfl, rfl⟩ := h
    show ('[' :: (ch.render ++ [']']) ++ List.takeWhile is_lyrics_char s1)
        ++ List.dropWhile is_lyrics_char s1 = s
    rw [List.append_assoc, List.takeWhile_append_dropWhile]
    exact pboxedChord_rt s s1 ch h1
  | none =>
    simp only [h1] at h
    unfold ptakeWhile1 at h
    cases htw : List.takeWhile is_lyrics_char s with
    | nil => simp only [htw] at h; exact Option.noConfusion h
    | cons c0 cs =>
      simp only [htw, Option.some.injEq, Prod.mk.injEq] at h
      obtain ⟨rfl, rfl⟩ := h
      show ([] ++ (c0 :: cs)) ++ List.dropWhile is_lyrics_char s = s
      rw [List.nil_append, ← htw, List.takeWhile_append_dropWhile]

/-- A successful (fueled) `many0` consumed exactly the rendered values, and
the element parser fails on the rest. -/
theorem pmany0_rt (f : List Char → Option (List Char × α)) (g : α → List Char)
    (hf : ∀ s r a, f s = some (r, a) → g a ++ r = s) :
    ∀ (fuel : Nat) (s r : List Char) (xs : List α),
      pmany0 f fuel s = some (r, xs) →
      (xs.map g).flatten ++ r = s ∧ f r = none := by
  intro fuel
  induction fuel with
  | zero => intro s r xs h; exact Option.noConfusion h
  | succ fuel ih =>
    intro s r xs h
    unfold pmany0 at h
    cases h1 : f s with
    | none =>
      simp only [h1, Option.some.injEq, Prod.mk.injEq] at h
      obtain ⟨rfl, rfl⟩ := h
      exact ⟨rfl, h1⟩
    | some res1 =>
      obtain ⟨rest, a⟩ := res1
      simp only [h1] at h
      split at h
      · simp only [Option.map_eq_some'] at h
        obtain ⟨⟨r2, xs2⟩, hrec, hpair⟩ := h
        simp only [Prod.mk.injEq] at hpair
        obtain ⟨rfl, rfl⟩ := hpair
        obtain ⟨hflat, hnone⟩ := ih rest r2 xs2 hrec
        refine ⟨?_, hnone⟩
        simp only [List.map_cons, List.flatten_cons]
        rw [List.append_assoc, hflat]
        exact hf s rest a h1
      · exact Option.noConfusion h

/-- A successful `inline_content` consumed exactly the rendered chunks, and
no further chunk can be parsed from the rest. -/
theorem pinlineContent_rt (s r : List Char) (cks : List Chunk)
    (h : pinlineContent s = some (r, cks)) :
    (cks.map Chunk.render).flatten ++ r = s ∧ pchunk r = none :=
  pmany0_rt pchunk Chunk.render pchunk_rt (s.length + 1) s r cks h

/-! ## Inline round-trip (claim C4): line- and chart-level lemmas -/

/-- A failing `chunk` means both of its alternatives failed. -/
theorem pchunk_none_parts (s : List Char) (h : pchunk s = none) :
    pboxedChord s = none ∧ ptakeWhile1 is_lyrics_char s = none := by
  unfold pchunk at h
  cases h1 : pboxedChord s with
  | some res1 =>
    obtain ⟨s1, ch⟩ := res1
    simp only [h1] at h
    unfold ptakeWhile at h
    exact Option.noConfusion h
  | none =>
    simp only [h1] at h
    cases h2 : ptakeWhile1 is_lyrics_char s with
    | some res2 =>
      obtain ⟨s1, ly⟩ := res2
      simp only [h2] at h
      exact Option.noConfusion h
    | none => exact ⟨rfl, rfl⟩

/-- `take_while1` fails on a list only when its head fails the predicate. -/
theorem ptakeWhile1_none_head (p : Char → Bool) (c : Char) (rest : List Char)
    (h : ptakeWhile1 p (c :: rest) = none) : p c = false := by
  cases hp : p c with
  | false => rfl
  | true =>
    unfold ptakeWhile1 at h
    rw [List.takeWhile_cons] at h
    simp only [hp, if_true] at h
    exact Option.noConfusion h

/-- The only characters that stop a lyric run. -/
theorem is_lyrics_false_cases (c : Char) (h : is_lyrics_char c = false) :
    c = '[' ∨ c = '\r' ∨ c = '\n' := by
  by_cases h1 : c = '['
  · exact Or.inl h1
  · by_cases h2 : c = '\r'
    · exact Or.inr (Or.inl h2)
    · by_cases h3 : c = '\n'
      · exact Or.inr (Or.inr h3)
      · exfalso
        unfold is_lyrics_char at h
        simp [h1, h2, h3] at h

/-- `tag` fails when the heads differ. -/
theorem ptag_cons_none (p : Char) (pat : List Char) (c : Char) (r : List Char)
    (hne : c ≠ p) : ptag (p :: pat) (c :: r) = none := by
  unfold ptag
  rw [if_neg]
  intro hpre
  obtain ⟨t, ht⟩ := List.isPrefixOf_iff_prefix.mp hpre
  rw [List.cons_append] at ht
  injection ht with ht1 _
  exact hne ht1.symm

/-- `accidental` consumes nothing on a head that is neither `b` nor `#`. -/
theorem paccidental_skip (c : Char) (r : List Char) (hb : c ≠ 'b') (hs : c ≠ '#') :
    paccidental (c :: r) = some (c :: r, ⟨0⟩) := by
  unfold paccidental
  simp only [ptag_cons_none 'b' ['b'] c r hb, ptag_cons_none 'b' [] c r hb,
    ptag_cons_none '#' ['#'] c r hs, ptag_cons_none '#' [] c r hs]

/-- After a failing `chunk` at a `[` head, `line` parses an empty inline
content line and consumes nothing. -/
theorem pline_stuck (ext : Bool) (rest : List Char)
    (hchunk : pchunk ('[' :: rest) = none) :
    pline ext ('[' :: rest) = some ('[' :: rest, Line.content [] true) := by
  have hboxed : pboxedChord ('[' :: rest) = none := (pchunk_none_parts _ hchunk).1
  have hdir : pdirective ('[' :: rest) = none := by
    unfold pdirective
    simp only [ptag_cons_none '{' [] '[' rest (by decide)]
  have hcl : charToLetter '[' = none := by decide
  have hcd : charToDegree '[' = none := by decide
  have hnote : pnote ('[' :: rest) = none := by
    simp [pnote, pletterNote, pletter, pscaleDegree, pbareScaleDegree, hcl, hcd,
      paccidental_skip '[' rest (by decide) (by decide)]
  have hchord : pchord ('[' :: rest) = none := by simp [pchord, hnote]
  have hinl : pinlineContent ('[' :: rest) = some ('[' :: rest, []) := by
    unfold pinlineContent pmany0
    simp [hchunk]
  have hcol : pchordsOverLyrics ext ('[' :: rest) = none := by
    cases ext with
    | false => rfl
    | true =>
      have hns : isNomSpace '[' = false := by decide
      have hsp : pspace0 ('[' :: rest) = some ('[' :: rest, []) := by
        simp [pspace0, ptakeWhile, List.dropWhile_cons, List.takeWhile_cons, hns]
      have helem : ∀ n, pchordElem n ('[' :: rest) = none := by
        intro n
        simp [pchordElem, hboxed, hchord]
      simp [pchordsOverLyrics, hsp, psepList1, helem]
  simp [pline, hdir, hcol, hinl]

/-- The chart loop rejects a stuck position (a line that consumes nothing and
no line break following it): nom's zero-consumption check. -/
theorem pchartLoop_stuck (ext : Bool) (fuel : Nat) (c1 : Char) (sl : List Char)
    (hline : pline ext (c1 :: sl) = some (c1 :: sl, Line.content [] true))
    (heol : plineEnding (c1 :: sl) = none) :
    pchartLoop ext fuel (c1 :: sl) = none := by
  cases fuel with
  | zero => rfl
  | succ fuel =>
    unfold pchartLoop
    have hpeof : peof (c1 :: sl) = none := rfl
    simp [hpeof, plineStep, hline, heol]

/-- A `line` result that is inline content came from `inline_content`. -/
theorem pline_content_inv (ext : Bool) (s r : List Char) (cks : List Chunk)
    (h : pline ext s = some (r, Line.content cks true)) :
    pinlineContent s = some (r, cks) := by
  unfold pline at h
  cases h1 : pdirective s with
  | some res =>
    obtain ⟨r1, d⟩ := res
    simp only [h1, Option.some.injEq, Prod.mk.injEq] at h
    exact absurd h.2 (by simp)
  | none =>
    simp only [h1] at h
    cases h2 : pchordsOverLyrics ext s with
    | some res =>
      obtain ⟨r1, cks1⟩ := res
      simp only [h2, Option.some.injEq, Prod.mk.injEq] at h
      exact absurd h.2 (by simp)
    | none =>
      simp only [h2] at h
      cases h3 : pinlineContent s with
      | none => simp only [h3] at h; exact Option.noConfusion h
      | some res =>
        obtain ⟨r1, cks1⟩ := res
        simp only [h3, Option.some.injEq, Prod.mk.injEq] at h
        obtain ⟨rfl, hl⟩ := h
        injection hl with hl1 hl2
        subst hl1
        rfl

/-- `line_ending` succeeds only by consuming a LF or a CRLF prefix. -/
theorem plineEnding_inv (s r v : List Char) (h : plineEnding s = some (r, v)) :
    s = '\n' :: r ∨ s = '\r' :: '\n' :: r := by
  unfold plineEnding at h
  split at h <;>
    first
    | exact Option.noConfusion h
    | (simp only [Option.some.injEq, Prod.mk.injEq] at h
       obtain ⟨rfl, rfl⟩ := h
       first
       | exact Or.inl rfl
       | exact Or.inr rfl)

/-- The inline flag of a content line, as a Boolean: the hypothesis form of
claim C4. -/
def Line.isInlineContent : Line → Bool
  | .content _ true => true
  | _ => false

/-- The chart loop round-trips: when every parsed line is inline content and
the input contains no carriage returns, re-rendering the lines (each followed
by a LF) reproduces the input, except possibly adding one trailing LF. -/
theorem Line_render_inline (cks : List Chunk) :
    (Line.content cks true).render = (cks.map Chunk.render).flatten := rfl

theorem pchartLoop_rt (ext : Bool) :
    ∀ (fuel : Nat) (s : List Char) (ls : List Line),
      pchartLoop ext fuel s = some ([], ls) →
      ls.all Line.isInlineContent = true →
      '\r' ∉ s →
      ((ls.map (fun l => l.render ++ ['\n'])).flatten = s
       ∨ (ls.map (fun l => l.render ++ ['\n'])).flatten = s ++ ['\n']) := by
  intro fuel
  induction fuel with
  | zero => intro s ls h _ _; exact Option.noConfusion h
  | succ fuel ih =>
    intro s ls h hinl hcr
    unfold pchartLoop at h
    cases s with
    | nil =>
      simp only [peof, Option.some.injEq, Prod.mk.injEq] at h
      obtain ⟨-, rfl⟩ := h
      left
      rfl
    | cons c0 s0 =>
      have hpeof : peof (c0 :: s0) = none := rfl
      simp only [hpeof] at h
      cases hstep : plineStep ext (c0 :: s0) with
      | none => simp only [hstep] at h; exact Option.noConfusion h
      | some res =>
        obtain ⟨s1, l⟩ := res
        simp only [hstep] at h
        split at h
        case isFalse => exact Option.noConfusion h
        case isTrue hlt =>
          simp only [Option.map_eq_some'] at h
          obtain ⟨⟨rr, restl⟩, hrec, hpair⟩ := h
          simp only [Prod.mk.injEq] at hpair
          obtain ⟨rfl, rfl⟩ := hpair
          simp only [List.all_cons, Bool.and_eq_true] at hinl
          obtain ⟨hl1, hinl2⟩ := hinl
          obtain ⟨cks, rfl⟩ : ∃ cks, l = Line.content cks true := by
            cases l with
            | directive d => exact absurd hl1 (by simp [Line.isInlineContent])
            | content cks b =>
              cases b with
              | false => exact absurd hl1 (by simp [Line.isInlineContent])
              | true => exact ⟨cks, rfl⟩
          unfold plineStep at hstep
          cases hline : pline ext (c0 :: s0) with
          | none => simp only [hline] at hstep; exact Option.noConfusion hstep
          | some res2 =>
            obtain ⟨sl, l0⟩ := res2
            simp only [hline] at hstep
            cases heol : plineEnding sl with
            | some res3 =>
              obtain ⟨s2, v⟩ := res3
              simp only [heol, Option.some.injEq, Prod.mk.injEq] at hstep
              obtain ⟨rfl, rfl⟩ := hstep
              obtain ⟨hflat, hchunkn⟩ :=
                pinlineContent_rt _ _ _ (pline_content_inv ext _ _ _ hline)
              rcases plineEnding_inv sl s2 v heol with hsl | hsl
              · subst hsl
                have hcr2 : '\r' ∉ s2 := by
                  intro hm
                  apply hcr
                  rw [← hflat]
                  simp [hm]
                rcases ih s2 restl hrec hinl2 hcr2 with h2 | h2
                · left
                  simp only [List.map_cons, List.flatten_cons, Line_render_inline]
                  rw [List.append_assoc, h2, ← hflat]
                  simp
                · right
                  simp only [List.map_cons, List.flatten_cons, Line_render_inline]
                  rw [List.append_assoc, h2, ← hflat]
                  simp
              · exfalso
                apply hcr
                rw [← hflat, hsl]
                simp
            | none =>
              simp only [heol, Option.some.injEq, Prod.mk.injEq] at hstep
              obtain ⟨rfl, rfl⟩ := hstep
              obtain ⟨hflat, hchunkn⟩ :=
                pinlineContent_rt _ _ _ (pline_content_inv ext _ _ _ hline)
              cases hs1 : sl with
              | nil =>
                subst hs1
                obtain rfl : restl = [] := by
                  cases fuel with
                  | zero => exact Option.noConfusion hrec
                  | succ f2 =>
                    unfold pchartLoop at hrec
                    simp only [peof, Option.some.injEq, Prod.mk.injEq] at hrec
                    exact hrec.2.symm
                right
                simp only [List.map_cons, List.flatten_cons, Line_render_inline,
                  List.map_nil, List.flatten_nil, List.append_nil]
                rw [← hflat]
                simp
              | cons c1 sl2 =>
                exfalso
                subst hs1
                obtain ⟨hboxedn, htw1n⟩ := pchunk_none_parts _ hchunkn
                rcases is_lyrics_false_cases c1 (ptakeWhile1_none_head _ _ _ htw1n)
                  with hc | hc | hc
                · subst hc
                  have hstuck := pchartLoop_stuck ext fuel '[' sl2
                    (pline_stuck ext sl2 hchunkn) heol
                  rw [hstuck] at hrec
                  exact Option.noConfusion hrec
                · subst hc
                  apply hcr
                  rw [← hflat]
                  simp
                · subst hc
                  have : plineEnding ('\n' :: sl2) = some (sl2, ['\n']) := rfl
                  rw [this] at heol
                  exact Option.noConfusion heol

/-- The concrete input of the round-trip witness. -/
def chartHiInput : List Char := ['[', 'G', ']', 'H', 'i', '\n']

/-- The chart parsed from `chartHiInput`. -/
def chartHi : Chart :=
  ⟨[Line.content
      [⟨some ⟨Note.letter ⟨Letter.G, Accidental.natural⟩, ⟨[]⟩, none⟩, ['H', 'i']⟩]
      true]⟩

/-- Claim C4 (amended): if an input with no carriage returns parses to a chart
all of whose lines are inline `Content` lines, rendering the chart reproduces
the input byte-for-byte up to a single optional trailing line feed.  The
original claim fails without the two added hypotheses: `\r\n` separators are
re-rendered as `\n` mid-string, and directive lines are re-rendered from their
parsed payload (`{tempo: 76}` becomes `{tempo:76}`). -/
theorem inline_round_trip_amended (ext : Bool) (s : List Char) (c : Chart)
    (h : pchart ext s = some ([], c))
    (hinl : c.lines.all Line.isInlineContent = true)
    (hcr : '\r' ∉ s) :
    Chart.render c = s ∨ Chart.render c = s ++ ['\n'] := by
  unfold pchart at h
  cases hl : pchartLoop ext (s.length + 1) s with
  | none =>
    simp only [hl] at h
    exact Option.noConfusion h
  | some r =>
    obtain ⟨r1, ls⟩ := r
    simp only [hl] at h
    injection h with h
    injection h with h1 h2
    subst h1
    subst h2
    exact pchartLoop_rt ext (s.length + 1) s ls hl hinl hcr

/-- Witness for the amended C4 round trip: the single inline line
`[G]Hi` followed by a line feed renders back to itself. -/
theorem inline_round_trip_amended_witness :
    pchart true chartHiInput = some ([], chartHi)
    ∧ chartHi.lines.all Line.isInlineContent = true
    ∧ '\r' ∉ chartHiInput
    ∧ (Chart.render chartHi = chartHiInput
       ∨ Chart.render chartHi = chartHiInput ++ ['\n']) :=
  ⟨by decide, by decide, by decide,
    inline_round_trip_amended true chartHiInput chartHi (by decide) (by decide)
      (by decide)⟩

/-- Counterexample to the original C4 claim: `a\r\nb` parses to a chart whose
two lines are both inline `Content` lines, but the render is `a\nb\n` —
the CRLF separator is normalized mid-string, so the output is neither the
input nor the input plus a trailing line break. -/
theorem inline_round_trip_cex :
    pchart true ['a', '\r', '\n', 'b']
      = some ([], ⟨[Line.content [⟨none, ['a']⟩] true,
                    Line.content [⟨none, ['b']⟩] true]⟩)
    ∧ (Chart.mk [Line.content [⟨none, ['a']⟩] true,
        Line.content [⟨none, ['b']⟩] true]).lines.all Line.isInlineContent = true
    ∧ Chart.render ⟨[Line.content [⟨none, ['a']⟩] true,
        Line.content [⟨none, ['b']⟩] true]⟩ ≠ ['a', '\r', '\n', 'b']
    ∧ Chart.render ⟨[Line.content [⟨none, ['a']⟩] true,
        Line.content [⟨none, ['b']⟩] true]⟩ ≠ ['a', '\r', '\n', 'b'] ++ ['\n'] := by
  refine ⟨by decide, by decide, by decide, by decide⟩
